import Mathlib

/-!
Verification of the transitive version-bump propagation engine of
`tools/fluid-build/src/bumpVersion/bumpVersion.ts`.

The TypeScript source is shallowly embedded below: the mutable accumulator
state (`packageNeedBump`, `serverNeedBump`, `depVersions`) becomes an explicit
`BumpState` threaded through the functions, thrown `Error`s become
`Except BumpError`, and the recursive closure `checkPackageNeedBump` becomes a
fuel-indexed structural recursion (the fuel models the call stack; a separate
theorem shows the chosen fuel is never exhausted, i.e. the recursion
terminates).  The external `semver` library is a collaborator (spec section 6)
and is passed in as two function parameters `sat` and `minV`; `sat v r = none`
models `semver.satisfies` throwing on a malformed range, `minV r = none`
models `semver.minVersion` returning `null`.
-/

/-- MonoRepoKind from `common/monoRepo`.  Modelled from the spec: the module
itself is not part of the given sources; spec sections 3 and 4.2 describe a
"fixed enumerated kind (e.g., Client, Server)" and the engine only ever
mentions `Client` and `Server`. -/
inductive MonoRepoKind where
  | Client
  | Server
deriving DecidableEq, Repr

/-- The string name of a kind, as produced by the TypeScript reverse enum
lookup `MonoRepoKind[monoRepo.kind]`. -/
def MonoRepoKind.str : MonoRepoKind → String
  | .Client => "Client"
  | .Server => "Server"

/-- One entry of `pkg.combinedDependencies`: the loop destructures it as
`{ name: dep, version }`, where `version` is the declared range string. -/
structure Dep where
  name : String
  version : String
  dev : Bool
deriving DecidableEq, Repr

/-- A package record: `name`, current `version`, `combinedDependencies`, and
optional mono-repo membership (collapsed to the repo kind, which is all the
engine reads besides `repoPath`). -/
structure Package where
  name : String
  version : String
  combinedDependencies : List Dep
  monoRepo : Option MonoRepoKind
deriving DecidableEq, Repr

/-- The error taxonomy of spec section 7 for the decision phase. -/
inductive BumpError where
  | inconsistentVersion (name version : String)
  | malformedRange (range : String)
  | nullAssertion (range : String)
deriving DecidableEq, Repr

/-- `versions[key] = value` on a JS object, embedded on an association list:
replace the first binding of `key` if present, otherwise append. -/
def setKey (m : List (String × String)) (k v : String) : List (String × String) :=
  match m with
  | [] => [(k, v)]
  | (k', v') :: rest => if k' = k then (k, v) :: rest else (k', v') :: setKey rest k v

/-- `versions[key]` read as a JS truthiness test: the key is "set" when it is
present with a non-empty value (`undefined` and `""` are both falsy). -/
def truthyAt (m : List (String × String)) (k : String) : Bool :=
  match m.lookup k with
  | none => false
  | some v => v ≠ ""

/-- `saveVersion(versions, name, version, monoRepo)` from bumpVersion.ts.
`name.startsWith(...)` is embedded via `List.take` on the character data,
which agrees with `String.startsWith`. -/
def saveVersion (versions : List (String × String)) (name version : String)
    (monoRepo : Option MonoRepoKind) : Except BumpError (List (String × String)) :=
  match monoRepo with
  | none => .ok (setKey versions name version)
  | some kind =>
    if name.data.take 27 = "@fluid-example/version-test".data then
      -- Ignore example packages
      .ok versions
    else if truthyAt versions kind.str then
      if versions.lookup kind.str ≠ some version then
        .error (.inconsistentVersion name version)
      else
        .ok versions
    else
      .ok (setKey versions kind.str version)

example : saveVersion [] "a" "1.0.0" none = .ok [("a", "1.0.0")] := rfl

example : saveVersion [("Client", "1.0.0")] "pkg" "2.0.0" (some .Client) =
    .error (.inconsistentVersion "pkg" "2.0.0") := rfl

/-- The accumulator state threaded through the traversal.  The first three
fields are the source's outer-scope mutables `packageNeedBump` (a
`Set<Package>`, kept here as the list of package names in insertion order),
`serverNeedBump` and `depVersions`.  `scanned` is ghost instrumentation: it
records the name of each package whose dependency-edge scan was entered (one
entry per entry into `checkPackageNeedBump`); no branch of the engine reads
it, it only serves to state the at-most-one-scan and coverage properties. -/
structure BumpState where
  packageNeedBump : List String
  serverNeedBump : Bool
  depVersions : List (String × String)
  scanned : List String
deriving DecidableEq, Repr

/-- `buildPackages.get(dep)`: the registry map keyed by package name. -/
def findPkg (registry : List Package) (n : String) : Option Package :=
  registry.find? (fun p => p.name = n)

section Engine

variable (registry : List Package)
variable (sat : String → String → Option Bool)
variable (minV : String → Option String)

/-- The body of the `for (const { name: dep, version } of
pkg.combinedDependencies)` loop of `checkPackageNeedBump`, with the recursive
call abstracted as the function argument `check` (it is instantiated with the
engine at one less fuel, making the whole recursion structural).  The outer
`Option` is `none` exactly when the fuel inside a nested `check` ran out;
`some (.error e)` is a thrown error, `some (.ok st)` normal completion. -/
def checkDeps (check : BumpState → Package → Option (Except BumpError BumpState)) :
    BumpState → List Dep → Option (Except BumpError BumpState)
  | st, [] => some (.ok st)
  | st, d :: rest =>
    match findPkg registry d.name with
    | none => checkDeps check st rest
    | some depBuildPackage =>
      -- let depVersion = depBuildPackage.version; branch; saveVersion; next edge
      let finish : BumpState → String → Option (Except BumpError BumpState) :=
        fun st' depVersion =>
          match saveVersion st'.depVersions d.name depVersion depBuildPackage.monoRepo with
          | .error e => some (.error e)
          | .ok dv => checkDeps check { st' with depVersions := dv } rest
      match sat depBuildPackage.version d.version with
      | none => some (.error (.malformedRange d.version))
      | some true =>
        if depBuildPackage.monoRepo = none then
          if depBuildPackage.name ∈ st.packageNeedBump then
            finish st depBuildPackage.version
          else
            match check { st with
                packageNeedBump := st.packageNeedBump ++ [depBuildPackage.name] }
                depBuildPackage with
            | none => none
            | some (.error e) => some (.error e)
            | some (.ok st2) => finish st2 depBuildPackage.version
        else if depBuildPackage.monoRepo = some .Server then
          finish { st with serverNeedBump := true } depBuildPackage.version
        else
          finish st depBuildPackage.version
      | some false =>
        match minV d.version with
        | none => some (.error (.nullAssertion d.version))
        | some m => finish st m

/-- `checkPackageNeedBump(pkg)`, indexed by fuel bounding the depth of nested
recursive calls.  Entering the function records `pkg.name` in the ghost
`scanned` log, then scans the dependency edges. -/
def checkPackageNeedBump : Nat → BumpState → Package → Option (Except BumpError BumpState)
  | 0, _, _ => none
  | f + 1, st, pkg =>
    checkDeps registry sat minV (checkPackageNeedBump f)
      { st with scanned := st.scanned ++ [pkg.name] } pkg.combinedDependencies

/-- `checkMonoRepoNeedBump(checkRepo)`: iterate the registry in order, running
`checkPackageNeedBump` on each member of the given mono-repo. -/
def checkMonoRepoNeedBump (f : Nat) (checkRepo : MonoRepoKind) :
    BumpState → List Package → Option (Except BumpError BumpState)
  | st, [] => some (.ok st)
  | st, pkg :: rest =>
    if pkg.monoRepo = some checkRepo then
      match checkPackageNeedBump registry sat minV f st pkg with
      | none => none
      | some (.error e) => some (.error e)
      | some (.ok st') => checkMonoRepoNeedBump f checkRepo st' rest
    else
      checkMonoRepoNeedBump f checkRepo st rest

/-- The decision phase of `main` (lines 139-180): start with empty
accumulators, run the Client wave, and if `serverNeedBump` was set run the
Server wave.  The fuel `registry.length + 1` is proved sufficient below. -/
def runBumpDecision : Option (Except BumpError BumpState) :=
  let f := registry.length + 1
  match checkMonoRepoNeedBump registry sat minV f .Client ⟨[], false, [], []⟩ registry with
  | none => none
  | some (.error e) => some (.error e)
  | some (.ok st1) =>
    if st1.serverNeedBump then
      checkMonoRepoNeedBump registry sat minV f .Server st1 registry
    else
      some (.ok st1)

end Engine

/-- `collectVersions(repo, generatorPackage, templatePackage)`: record every
registry package, then the two extra packages (which have no mono-repo). -/
def collectVersions (registry : List Package) (generatorPackage templatePackage : String × String) :
    Except BumpError (List (String × String)) := do
  let mut0 : List (String × String) := []
  let step : List (String × String) → Package → Except BumpError (List (String × String)) :=
    fun versions pkg => saveVersion versions pkg.name pkg.version pkg.monoRepo
  let afterRepo ← registry.foldlM step mut0
  let afterGen ← saveVersion afterRepo generatorPackage.1 generatorPackage.2 none
  saveVersion afterGen templatePackage.1 templatePackage.2 none

example :
    runBumpDecision
      [⟨"c", "1.0.0", [⟨"a", "^1.0.0", false⟩], some .Client⟩,
       ⟨"a", "1.0.0", [⟨"b", "^1.0.0", false⟩], none⟩,
       ⟨"b", "1.0.0", [⟨"a", "^1.0.0", false⟩], none⟩]
      (fun _ _ => some true) (fun _ => some "1.0.0") =
    some (.ok ⟨["a", "b"], false,
      [("a", "1.0.0"), ("b", "1.0.0")], ["c", "a", "b"]⟩) := rfl

/-! ### A concrete semver collaborator

Modelled from the spec: the `semver` npm library is an external collaborator
(spec section 6: `satisfies(version, range) -> bool`,
`minVersion(range) -> version`, failures propagate as `MalformedRangeError`).
The fragment below handles `major.minor.patch` versions and ranges that are
either exact (`1.2.3`) or caret (`^1.2.3`, same major and at least the floor);
anything else is malformed (`none`).  It instantiates the engine's `sat` and
`minV` parameters in concrete examples. -/

/-- Split a character list on `'.'`. -/
def splitDots : List Char → List (List Char)
  | [] => [[]]
  | c :: rest =>
    if c = '.' then [] :: splitDots rest
    else
      match splitDots rest with
      | [] => [[c]]
      | g :: gs => (c :: g) :: gs

/-- Read a non-empty all-digit character list as a number. -/
def digitsToNat : List Char → Option Nat
  | [] => none
  | l => l.foldlM (fun acc c => if c.isDigit then some (acc * 10 + (c.toNat - 48)) else none) 0

/-- Parse `major.minor.patch`. -/
def parseVersion (s : String) : Option (Nat × Nat × Nat) :=
  match splitDots s.data with
  | [a, b, c] => do
    let x ← digitsToNat a
    let y ← digitsToNat b
    let z ← digitsToNat c
    some (x, y, z)
  | _ => none

/-- The floor version of a range: the part after `^`, or the exact version. -/
def rangeFloor (range : String) : Option (Nat × Nat × Nat) :=
  match range.data with
  | '^' :: rest => parseVersion (String.mk rest)
  | _ => parseVersion range

/-- Whether the range is a caret range. -/
def rangeIsCaret (range : String) : Bool :=
  match range.data with
  | '^' :: _ => true
  | _ => false

/-- `semver.satisfies(version, range)` on the fragment. -/
def satSpec (version range : String) : Option Bool :=
  match parseVersion version, rangeFloor range with
  | some (a, b, c), some (x, y, z) =>
    if rangeIsCaret range then some (decide (a = x ∧ (y < b ∨ (y = b ∧ z ≤ c))))
    else some (decide (a = x ∧ b = y ∧ c = z))
  | _, _ => none

/-- Render a parsed version back to a string. -/
def renderVersion (t : Nat × Nat × Nat) : String :=
  toString t.1 ++ "." ++ toString t.2.1 ++ "." ++ toString t.2.2

/-- `semver.minVersion(range).version` on the fragment: the range's floor. -/
def minVSpec (range : String) : Option String :=
  (rangeFloor range).map renderVersion

example : satSpec "1.2.0" "^1.0.0" = some true := by decide
example : satSpec "2.0.0" "^1.0.0" = some false := by decide
example : minVSpec "^1.0.0" = some "1.0.0" := by decide
example : satSpec "1.2.0" "nonsense" = none := by decide

/-! ### Declarative reachability and sources -/

/-- `n` names a standalone (mono-repo-less) package of the registry. -/
def StandaloneName (registry : List Package) (n : String) : Prop :=
  ∃ p, p ∈ registry ∧ p.name = n ∧ p.monoRepo = none

/-- The names of the members of a mono-repo group. -/
def membersOf (registry : List Package) (kind : MonoRepoKind) : List String :=
  (registry.filter (fun p => p.monoRepo = some kind)).map Package.name

/-- A satisfied dependency edge: some package named `u` declares a dependency
that resolves in the registry to a package named `v` whose current version
satisfies the declared range. -/
def SatEdge (registry : List Package) (sat : String → String → Option Bool)
    (u v : String) : Prop :=
  ∃ p d q, p ∈ registry ∧ p.name = u ∧ d ∈ p.combinedDependencies ∧
    findPkg registry d.name = some q ∧ q.name = v ∧ sat q.version d.version = some true

/-- `Reaches registry sat S v`: `v` is reachable from some name in `S` by a
non-empty chain of satisfied dependency edges. -/
inductive Reaches (registry : List Package) (sat : String → String → Option Bool)
    (S : List String) : String → Prop where
  | base {s v : String} : s ∈ S → SatEdge registry sat s v → Reaches registry sat S v
  | step {u v : String} : Reaches registry sat S u → SatEdge registry sat u v →
      Reaches registry sat S v

/-- The scan sources of a finished run: the Client members, plus the Server
members when the run decided the Server group also needs a bump. -/
def bumpSources (registry : List Package) (st : BumpState) : List String :=
  membersOf registry .Client ++ (if st.serverNeedBump then membersOf registry .Server else [])

/-! ### The orchestration of `main` (lines 113-237)

Modelled from the source with the external world abstracted: the generator and
template packages are given as `(name, version)` pairs, the post-bump reloaded
state of the world is given as a second registry and second package pairs, and
the external mutating commands are recorded in an emitted list instead of
executed. -/

/-- One external mutating command invoked by `main`. -/
inductive ExternalCommand where
  | lernaBump (kind : MonoRepoKind)
  | npmVersionPackage (name : String)
  | saveTemplateJson
  | npmVersionTemplate
  | npmVersionGenerator
deriving DecidableEq, Repr

/-- The decision phase of `main`: the traversal (lines 139-180), the generator
and template recordings (lines 185-186) and the `oldVersions` snapshot
(line 188).  Everything here precedes the first external mutating command. -/
def decisionPhase (registry : List Package) (sat : String → String → Option Bool)
    (minV : String → Option String) (generatorPackage templatePackage : String × String) :
    Option (Except BumpError BumpState) :=
  match runBumpDecision registry sat minV with
  | none => none
  | some (.error e) => some (.error e)
  | some (.ok st) =>
    let reports : Except BumpError (List (String × String)) := do
      let dv1 ← saveVersion st.depVersions generatorPackage.1 generatorPackage.2 none
      let _dv2 ← saveVersion dv1 templatePackage.1 templatePackage.2 none
      collectVersions registry generatorPackage templatePackage
    match reports with
    | .error e => some (.error e)
    | .ok _ => some (.ok st)

/-- `main` after the branch pre-flight: decision phase, then the external
mutation phase (lines 202-226), then the post-reload `newVersions` snapshot
(line 229).  Returns the list of external commands that were executed together
with the final outcome. -/
def mainModel (registry : List Package) (sat : String → String → Option Bool)
    (minV : String → Option String) (generatorPackage templatePackage : String × String)
    (registryAfterReload : List Package) (generatorAfter templateAfter : String × String) :
    Option (List ExternalCommand × Except BumpError Unit) :=
  match decisionPhase registry sat minV generatorPackage templatePackage with
  | none => none
  | some (.error e) => some ([], .error e)
  | some (.ok st) =>
    let cmds : List ExternalCommand :=
      [.lernaBump .Client]
        ++ (if st.serverNeedBump then [.lernaBump .Server] else [])
        ++ st.packageNeedBump.map .npmVersionPackage
        ++ [.saveTemplateJson, .npmVersionTemplate, .npmVersionGenerator]
    match collectVersions registryAfterReload generatorAfter templateAfter with
    | .error e => some (cmds, .error e)
    | .ok _ => some (cmds, .ok ())

/-! ### Monotonicity and name characterization of the traversal -/

/-- What one completed engine step does to the accumulators: `packageNeedBump`
and `scanned` only grow at the end, the new names are standalone registry
names, the server flag never goes from set to unset, and distinctness of the
bump list is preserved. -/
def EngineRel (registry : List Package) (st st' : BumpState) : Prop :=
  (∃ t, st'.packageNeedBump = st.packageNeedBump ++ t ∧
    ∀ n ∈ t, StandaloneName registry n) ∧
  (∃ t, st'.scanned = st.scanned ++ t ∧ ∀ n ∈ t, StandaloneName registry n) ∧
  (st.serverNeedBump = true → st'.serverNeedBump = true) ∧
  (st.packageNeedBump.Nodup → st'.packageNeedBump.Nodup)

/-- Like `EngineRel`, for a completed `checkPackageNeedBump pkg` call: the
scanned log may additionally gain `pkg.name` itself. -/
def CheckOkRel (registry : List Package) (pkg : Package) (st st' : BumpState) : Prop :=
  (∃ t, st'.packageNeedBump = st.packageNeedBump ++ t ∧
    ∀ n ∈ t, StandaloneName registry n) ∧
  (∃ t, st'.scanned = st.scanned ++ t ∧
    ∀ n ∈ t, n = pkg.name ∨ StandaloneName registry n) ∧
  (st.serverNeedBump = true → st'.serverNeedBump = true) ∧
  (st.packageNeedBump.Nodup → st'.packageNeedBump.Nodup)

theorem engineRel_refl (registry : List Package) (st : BumpState) : EngineRel registry st st :=
  ⟨⟨[], by simp, by simp⟩, ⟨[], by simp, by simp⟩, fun h => h, fun h => h⟩

theorem engineRel_trans {registry : List Package} {a b c : BumpState}
    (h1 : EngineRel registry a b) (h2 : EngineRel registry b c) : EngineRel registry a c := by
  obtain ⟨⟨t1, hb1, hs1⟩, ⟨u1, hc1, hd1⟩, hf1, hn1⟩ := h1
  obtain ⟨⟨t2, hb2, hs2⟩, ⟨u2, hc2, hd2⟩, hf2, hn2⟩ := h2
  refine ⟨⟨t1 ++ t2, by simp [hb2, hb1], ?_⟩, ⟨u1 ++ u2, by simp [hc2, hc1], ?_⟩,
    fun h => hf2 (hf1 h), fun h => hn2 (hn1 h)⟩
  · intro n hn; rcases List.mem_append.mp hn with h | h
    · exact hs1 n h
    · exact hs2 n h
  · intro n hn; rcases List.mem_append.mp hn with h | h
    · exact hd1 n h
    · exact hd2 n h

theorem engineRel_setDepV (registry : List Package) (st : BumpState)
    (dv : List (String × String)) : EngineRel registry st { st with depVersions := dv } :=
  ⟨⟨[], by simp, by simp⟩, ⟨[], by simp, by simp⟩, fun h => h, fun h => h⟩

theorem checkOkRel_of_engineRel {registry : List Package} {pkg : Package} {st st' : BumpState}
    (h : EngineRel registry st st') : CheckOkRel registry pkg st st' := by
  obtain ⟨hb, ⟨u, hc, hd⟩, hf, hn⟩ := h
  exact ⟨hb, ⟨u, hc, fun n hn => Or.inr (hd n hn)⟩, hf, hn⟩

theorem engineRel_of_checkOkRel {registry : List Package} {pkg : Package} {st st' : BumpState}
    (hmem : pkg ∈ registry) (hst : pkg.monoRepo = none)
    (h : CheckOkRel registry pkg st st') : EngineRel registry st st' := by
  obtain ⟨hb, ⟨u, hc, hd⟩, hf, hn⟩ := h
  refine ⟨hb, ⟨u, hc, fun n hn => ?_⟩, hf, hn⟩
  rcases hd n hn with h | h
  · exact ⟨pkg, hmem, h.symm, hst⟩
  · exact h

theorem findPkg_mem {registry : List Package} {n : String} {p : Package}
    (h : findPkg registry n = some p) : p ∈ registry ∧ p.name = n := by
  refine ⟨List.mem_of_find?_eq_some h, ?_⟩
  have := List.find?_some h
  simpa using this

theorem nodup_append_singleton {l : List String} {a : String}
    (h : l.Nodup) (ha : a ∉ l) : (l ++ [a]).Nodup := by
  rw [List.nodup_append]
  exact ⟨h, List.nodup_singleton a, fun x hx hxa => ha (by
    rcases List.mem_singleton.mp hxa with rfl; exact hx)⟩

theorem checkDeps_rel {registry : List Package} {sat : String → String → Option Bool}
    {minV : String → Option String}
    {g : BumpState → Package → Option (Except BumpError BumpState)}
    (Hg : ∀ st pkg st', pkg ∈ registry → pkg.monoRepo = none →
      g st pkg = some (.ok st') → EngineRel registry st st') :
    ∀ deps st st', checkDeps registry sat minV g st deps = some (.ok st') →
      EngineRel registry st st' := by
  intro deps
  induction deps with
  | nil =>
    intro st st' h
    simp only [checkDeps, Option.some.injEq, Except.ok.injEq] at h
    rw [← h]; exact engineRel_refl registry st
  | cons d rest ih =>
    intro st st' h
    rw [checkDeps] at h
    rcases hfind : findPkg registry d.name with _ | depPkg
    · rw [hfind] at h
      exact ih st st' h
    · rw [hfind] at h
      obtain ⟨hdm, hdn⟩ := findPkg_mem hfind
      simp only at h
      rcases hsat : sat depPkg.version d.version with _ | b
      · simp [hsat] at h
      · rcases b with _ | _
        · -- not satisfied: minVersion floor then record
          simp only [hsat] at h
          rcases hmin : minV d.version with _ | m
          · simp [hmin] at h
          · simp only [hmin] at h
            rcases hsave : saveVersion st.depVersions d.name m depPkg.monoRepo with e | dv
            · simp [hsave] at h
            · simp only [hsave] at h
              exact engineRel_trans (engineRel_setDepV registry st dv) (ih _ _ h)
        · -- satisfied
          simp only [hsat] at h
          rcases hmr : depPkg.monoRepo with _ | kind
          · -- standalone dependency
            simp only [hmr, if_pos rfl] at h
            by_cases hmem : depPkg.name ∈ st.packageNeedBump
            · rw [if_pos hmem] at h
              rcases hsave : saveVersion st.depVersions d.name depPkg.version none
                with e | dv
              · simp [hsave] at h
              · simp only [hsave] at h
                exact engineRel_trans (engineRel_setDepV registry st dv) (ih _ _ h)
            · rw [if_neg hmem] at h
              rcases hG : g { st with
                  packageNeedBump := st.packageNeedBump ++ [depPkg.name] } depPkg
                with _ | res
              · simp [hG] at h
              · rcases res with e | st3
                · simp [hG] at h
                · simp only [hG] at h
                  have hrel2 : EngineRel registry
                      { st with packageNeedBump := st.packageNeedBump ++ [depPkg.name] } st3 :=
                    Hg _ _ _ hdm hmr hG
                  have hrel1 : EngineRel registry st
                      { st with packageNeedBump := st.packageNeedBump ++ [depPkg.name] } := by
                    refine ⟨⟨[depPkg.name], rfl, ?_⟩, ⟨[], by simp, by simp⟩, fun hh => hh, ?_⟩
                    · intro n hn
                      rcases List.mem_singleton.mp hn with rfl
                      exact ⟨depPkg, hdm, rfl, hmr⟩
                    · intro hnd
                      exact nodup_append_singleton hnd hmem
                  rcases hsave : saveVersion st3.depVersions d.name depPkg.version none
                    with e | dv
                  · simp [hsave] at h
                  · simp only [hsave] at h
                    exact engineRel_trans hrel1 (engineRel_trans hrel2
                      (engineRel_trans (engineRel_setDepV registry st3 dv) (ih _ _ h)))
          · -- mono-repo dependency
            simp only [hmr] at h
            rcases kind with _ | _
            · -- Client: no state change before the record
              rw [if_neg (by simp), if_neg (by simp)] at h
              rcases hsave : saveVersion st.depVersions d.name depPkg.version
                  (some MonoRepoKind.Client) with e | dv
              · simp [hsave] at h
              · simp only [hsave] at h
                exact engineRel_trans (engineRel_setDepV registry st dv) (ih _ _ h)
            · -- Server: set the flag, then record
              rw [if_neg (by simp), if_pos rfl] at h
              rcases hsave : saveVersion st.depVersions d.name depPkg.version
                  (some MonoRepoKind.Server) with e | dv
              · simp [hsave] at h
              · simp only [hsave] at h
                have hstep : EngineRel registry st { st with serverNeedBump := true } :=
                  ⟨⟨[], by simp, by simp⟩, ⟨[], by simp, by simp⟩, fun _ => rfl, fun hh => hh⟩
                exact engineRel_trans hstep
                  (engineRel_trans (engineRel_setDepV registry _ dv) (ih _ _ h))

theorem checkOkRel_trans {registry : List Package} {pkg : Package} {a b c : BumpState}
    (h1 : CheckOkRel registry pkg a b) (h2 : CheckOkRel registry pkg b c) :
    CheckOkRel registry pkg a c := by
  obtain ⟨⟨t1, hb1, hs1⟩, ⟨u1, hc1, hd1⟩, hf1, hn1⟩ := h1
  obtain ⟨⟨t2, hb2, hs2⟩, ⟨u2, hc2, hd2⟩, hf2, hn2⟩ := h2
  refine ⟨⟨t1 ++ t2, by simp [hb2, hb1], ?_⟩, ⟨u1 ++ u2, by simp [hc2, hc1], ?_⟩,
    fun h => hf2 (hf1 h), fun h => hn2 (hn1 h)⟩
  · intro n hn; rcases List.mem_append.mp hn with h | h
    · exact hs1 n h
    · exact hs2 n h
  · intro n hn; rcases List.mem_append.mp hn with h | h
    · exact hd1 n h
    · exact hd2 n h

/-- Every completed `checkPackageNeedBump` call satisfies `CheckOkRel`. -/
theorem check_rel {registry : List Package} {sat : String → String → Option Bool}
    {minV : String → Option String} :
    ∀ f st pkg st', checkPackageNeedBump registry sat minV f st pkg = some (.ok st') →
      CheckOkRel registry pkg st st' := by
  intro f
  induction f with
  | zero => intro st pkg st' h; simp [checkPackageNeedBump] at h
  | succ f ihf =>
    intro st pkg st' h
    rw [checkPackageNeedBump] at h
    have hrel := checkDeps_rel (g := checkPackageNeedBump registry sat minV f)
      (fun st2 q st3 hq hqn hG => engineRel_of_checkOkRel hq hqn (ihf st2 q st3 hG)) _ _ _ h
    have hstep : CheckOkRel registry pkg st { st with scanned := st.scanned ++ [pkg.name] } := by
      refine ⟨⟨[], by simp, by simp⟩, ⟨[pkg.name], rfl, ?_⟩, fun hh => hh, fun hh => hh⟩
      intro n hn; rcases List.mem_singleton.mp hn with rfl; exact Or.inl rfl
    exact checkOkRel_trans hstep (checkOkRel_of_engineRel hrel)

/-- A completed `checkPackageNeedBump pkg` call leaves `pkg.name` in the
scanned log. -/
theorem check_scanned_self {registry : List Package} {sat : String → String → Option Bool}
    {minV : String → Option String} {f : Nat} {st : BumpState} {pkg : Package}
    {st' : BumpState} (h : checkPackageNeedBump registry sat minV f st pkg = some (.ok st')) :
    pkg.name ∈ st'.scanned := by
  cases f with
  | zero => simp [checkPackageNeedBump] at h
  | succ f =>
    rw [checkPackageNeedBump] at h
    have hrel := checkDeps_rel (g := checkPackageNeedBump registry sat minV f)
      (fun st2 q st3 hq hqn hG => engineRel_of_checkOkRel hq hqn (check_rel f st2 q st3 hG))
      _ _ _ h
    obtain ⟨_, ⟨u, hc, _⟩, _, _⟩ := hrel
    rw [hc]
    simp

/-- What a completed wave (`checkMonoRepoNeedBump`) does to the state, and
that it scans every member of the targeted group. -/
def WaveRel (registry : List Package) (kind : MonoRepoKind) (pkgs : List Package)
    (st st' : BumpState) : Prop :=
  (∃ t, st'.packageNeedBump = st.packageNeedBump ++ t ∧
    ∀ n ∈ t, StandaloneName registry n) ∧
  (∃ t, st'.scanned = st.scanned ++ t ∧
    ∀ n ∈ t, StandaloneName registry n ∨
      ∃ p, p ∈ pkgs ∧ p.monoRepo = some kind ∧ p.name = n) ∧
  (st.serverNeedBump = true → st'.serverNeedBump = true) ∧
  (st.packageNeedBump.Nodup → st'.packageNeedBump.Nodup) ∧
  (∀ p, p ∈ pkgs → p.monoRepo = some kind → p.name ∈ st'.scanned)

theorem wave_rel {registry : List Package} {sat : String → String → Option Bool}
    {minV : String → Option String} {f : Nat} {kind : MonoRepoKind} :
    ∀ pkgs st st', checkMonoRepoNeedBump registry sat minV f kind st pkgs = some (.ok st') →
      WaveRel registry kind pkgs st st' := by
  intro pkgs
  induction pkgs with
  | nil =>
    intro st st' h
    simp only [checkMonoRepoNeedBump, Option.some.injEq, Except.ok.injEq] at h
    rw [← h]
    exact ⟨⟨[], by simp, by simp⟩, ⟨[], by simp, by simp⟩, fun hh => hh, fun hh => hh,
      by simp⟩
  | cons pkg rest ih =>
    intro st st' h
    rw [checkMonoRepoNeedBump] at h
    by_cases hk : pkg.monoRepo = some kind
    · rw [if_pos hk] at h
      rcases hG : checkPackageNeedBump registry sat minV f st pkg with _ | res
      · rw [hG] at h; simp at h
      · rw [hG] at h
        rcases res with e | st1
        · simp at h
        · simp only at h
          have h1 := check_rel f st pkg st1 hG
          have hself := check_scanned_self hG
          have h2 := ih st1 st' h
          obtain ⟨⟨t1, hb1, hs1⟩, ⟨u1, hc1, hd1⟩, hf1, hn1⟩ := h1
          obtain ⟨⟨t2, hb2, hs2⟩, ⟨u2, hc2, hd2⟩, hf2, hn2, hcov⟩ := h2
          refine ⟨⟨t1 ++ t2, by simp [hb2, hb1], ?_⟩, ⟨u1 ++ u2, by simp [hc2, hc1], ?_⟩,
            fun hh => hf2 (hf1 hh), fun hh => hn2 (hn1 hh), ?_⟩
          · intro n hn; rcases List.mem_append.mp hn with hh | hh
            · exact hs1 n hh
            · exact hs2 n hh
          · intro n hn; rcases List.mem_append.mp hn with hh | hh
            · rcases hd1 n hh with rfl | hh'
              · exact Or.inr ⟨pkg, List.mem_cons_self pkg rest, hk, rfl⟩
              · exact Or.inl hh'
            · rcases hd2 n hh with hh' | ⟨p, hp, hpk, hpn⟩
              · exact Or.inl hh'
              · exact Or.inr ⟨p, List.mem_cons_of_mem pkg hp, hpk, hpn⟩
          · intro p hp hpk
            rcases List.mem_cons.mp hp with rfl | hp'
            · rw [hc2]; exact List.mem_append.mpr (Or.inl hself)
            · exact hcov p hp' hpk
    · rw [if_neg hk] at h
      have h2 := ih st st' h
      obtain ⟨hb, ⟨u2, hc2, hd2⟩, hf2, hn2, hcov⟩ := h2
      refine ⟨hb, ⟨u2, hc2, ?_⟩, hf2, hn2, ?_⟩
      · intro n hn
        rcases hd2 n hn with hh' | ⟨p, hp, hpk, hpn⟩
        · exact Or.inl hh'
        · exact Or.inr ⟨p, List.mem_cons_of_mem pkg hp, hpk, hpn⟩
      · intro p hp hpk
        rcases List.mem_cons.mp hp with rfl | hp'
        · exact absurd hpk hk
        · exact hcov p hp' hpk

/-! ### Termination: the chosen fuel is never exhausted -/

/-- The standalone registry names not yet in the bump set: the measure that
shrinks at every nested recursive call of the traversal. -/
def unbumped (registry : List Package) (bump : List String) : Finset String :=
  ((registry.filter (fun p => p.monoRepo = none)).map Package.name).toFinset \ bump.toFinset

theorem unbumped_card_le (registry : List Package) (bump : List String) :
    (unbumped registry bump).card ≤ registry.length := by
  calc (unbumped registry bump).card
      ≤ ((registry.filter (fun p => p.monoRepo = none)).map Package.name).toFinset.card :=
        Finset.card_le_card (Finset.sdiff_subset)
    _ ≤ ((registry.filter (fun p => p.monoRepo = none)).map Package.name).length :=
        List.toFinset_card_le _
    _ ≤ registry.length := by
        rw [List.length_map]
        exact List.length_filter_le _ _

theorem unbumped_antimono {registry : List Package} {bump bump' : List String}
    (h : ∀ n, n ∈ bump → n ∈ bump') :
    (unbumped registry bump').card ≤ (unbumped registry bump).card := by
  apply Finset.card_le_card
  intro x hx
  rw [unbumped, Finset.mem_sdiff] at hx ⊢
  exact ⟨hx.1, fun hc => hx.2 (by
    rw [List.mem_toFinset] at hc ⊢
    exact h x hc)⟩

theorem unbumped_strict {registry : List Package} {bump : List String} {q : Package}
    (hq : q ∈ registry) (hqs : q.monoRepo = none) (hqn : q.name ∉ bump) :
    (unbumped registry (bump ++ [q.name])).card < (unbumped registry bump).card := by
  apply Finset.card_lt_card
  rw [Finset.ssubset_iff_of_subset]
  · refine ⟨q.name, ?_, ?_⟩
    · rw [unbumped, Finset.mem_sdiff, List.mem_toFinset, List.mem_toFinset]
      constructor
      · exact List.mem_map.mpr ⟨q, List.mem_filter.mpr ⟨hq, by simp [hqs]⟩, rfl⟩
      · exact hqn
    · rw [unbumped, Finset.mem_sdiff, List.mem_toFinset]
      intro hc
      exact hc.2 (by simp)
  · apply Finset.sdiff_subset_sdiff (le_refl _)
    intro x hx
    rw [List.mem_toFinset] at hx ⊢
    exact List.mem_append.mpr (Or.inl hx)

theorem checkDeps_sufficient {registry : List Package} {sat : String → String → Option Bool}
    {minV : String → Option String}
    {g : BumpState → Package → Option (Except BumpError BumpState)} {f : Nat}
    (HgRel : ∀ st pkg st', g st pkg = some (.ok st') →
      ∀ n, n ∈ st.packageNeedBump → n ∈ st'.packageNeedBump)
    (HgSuff : ∀ st pkg, pkg ∈ registry → pkg.monoRepo = none →
      (unbumped registry st.packageNeedBump).card < f → g st pkg ≠ none) :
    ∀ deps st, (unbumped registry st.packageNeedBump).card ≤ f →
      checkDeps registry sat minV g st deps ≠ none := by
  intro deps
  induction deps with
  | nil => intro st _ h; simp [checkDeps] at h
  | cons d rest ih =>
    intro st hcount h
    rw [checkDeps] at h
    rcases hfind : findPkg registry d.name with _ | depPkg
    · rw [hfind] at h
      exact ih st hcount h
    · rw [hfind] at h
      obtain ⟨hdm, hdn⟩ := findPkg_mem hfind
      simp only at h
      rcases hsat : sat depPkg.version d.version with _ | b
      · simp [hsat] at h
      · rcases b with _ | _
        · simp only [hsat] at h
          rcases hmin : minV d.version with _ | m
          · simp [hmin] at h
          · simp only [hmin] at h
            rcases hsave : saveVersion st.depVersions d.name m depPkg.monoRepo with e | dv
            · simp [hsave] at h
            · simp only [hsave] at h
              exact ih { st with depVersions := dv } hcount h
        · simp only [hsat] at h
          rcases hmr : depPkg.monoRepo with _ | kind
          · simp only [hmr, if_pos rfl] at h
            by_cases hmem : depPkg.name ∈ st.packageNeedBump
            · rw [if_pos hmem] at h
              rcases hsave : saveVersion st.depVersions d.name depPkg.version none with e | dv
              · simp [hsave] at h
              · simp only [hsave] at h
                exact ih { st with depVersions := dv } hcount h
            · rw [if_neg hmem] at h
              have hlt : (unbumped registry (st.packageNeedBump ++ [depPkg.name])).card <
                  (unbumped registry st.packageNeedBump).card :=
                unbumped_strict hdm hmr hmem
              rcases hG : g { st with
                  packageNeedBump := st.packageNeedBump ++ [depPkg.name] } depPkg with _ | res
              · exact HgSuff _ _ hdm hmr (lt_of_lt_of_le hlt hcount) hG
              · rw [hG] at h
                rcases res with e | st3
                · simp at h
                · simp only at h
                  rcases hsave : saveVersion st3.depVersions d.name depPkg.version none
                    with e | dv
                  · simp [hsave] at h
                  · simp only [hsave] at h
                    have hsub := HgRel _ _ _ hG
                    have hle : (unbumped registry st3.packageNeedBump).card ≤
                        (unbumped registry st.packageNeedBump).card := by
                      apply unbumped_antimono
                      intro n hn
                      exact hsub n (List.mem_append.mpr (Or.inl hn))
                    exact ih { st3 with depVersions := dv } (le_trans hle hcount) h
          · simp only [hmr] at h
            rcases kind with _ | _
            · rw [if_neg (by simp), if_neg (by simp)] at h
              rcases hsave : saveVersion st.depVersions d.name depPkg.version
                  (some MonoRepoKind.Client) with e | dv
              · simp [hsave] at h
              · simp only [hsave] at h
                exact ih { st with depVersions := dv } hcount h
            · rw [if_neg (by simp), if_pos rfl] at h
              rcases hsave : saveVersion st.depVersions d.name depPkg.version
                  (some MonoRepoKind.Server) with e | dv
              · simp [hsave] at h
              · simp only [hsave] at h
                exact ih { st with serverNeedBump := true, depVersions := dv } hcount h

theorem check_sufficient {registry : List Package} {sat : String → String → Option Bool}
    {minV : String → Option String} :
    ∀ f st (pkg : Package), (unbumped registry st.packageNeedBump).card < f →
      checkPackageNeedBump registry sat minV f st pkg ≠ none := by
  intro f
  induction f with
  | zero => intro st pkg hc; omega
  | succ f ihf =>
    intro st pkg hc
    rw [checkPackageNeedBump]
    apply checkDeps_sufficient
    · intro st2 q st3 hG n hn
      obtain ⟨⟨t, hb, _⟩, _, _, _⟩ := check_rel f st2 q st3 hG
      rw [hb]
      exact List.mem_append.mpr (Or.inl hn)
    · intro st2 q _ _ hcount
      exact ihf st2 q hcount
    · exact Nat.lt_succ_iff.mp hc

theorem wave_sufficient {registry : List Package} {sat : String → String → Option Bool}
    {minV : String → Option String} {f : Nat} {kind : MonoRepoKind} :
    ∀ pkgs st, (unbumped registry st.packageNeedBump).card < f →
      checkMonoRepoNeedBump registry sat minV f kind st pkgs ≠ none := by
  intro pkgs
  induction pkgs with
  | nil => intro st _ h; simp [checkMonoRepoNeedBump] at h
  | cons pkg rest ih =>
    intro st hc h
    rw [checkMonoRepoNeedBump] at h
    by_cases hk : pkg.monoRepo = some kind
    · rw [if_pos hk] at h
      rcases hG : checkPackageNeedBump registry sat minV f st pkg with _ | res
      · exact check_sufficient f st pkg hc hG
      · rw [hG] at h
        rcases res with e | st1
        · simp at h
        · simp only at h
          obtain ⟨⟨t, hb, _⟩, _, _, _⟩ := check_rel f st pkg st1 hG
          have hle : (unbumped registry st1.packageNeedBump).card ≤
              (unbumped registry st.packageNeedBump).card := by
            apply unbumped_antimono
            intro n hn
            rw [hb]; exact List.mem_append.mpr (Or.inl hn)
          exact ih st1 (lt_of_le_of_lt hle hc) h
    · rw [if_neg hk] at h
      exact ih st hc h

/-- The traversal of `runBumpDecision` never exhausts its fuel: on every
registry — cyclic dependency graphs included — the recursion terminates
within `registry.length + 1` nested calls. -/
theorem runBumpDecision_terminates (registry : List Package)
    (sat : String → String → Option Bool) (minV : String → Option String) :
    runBumpDecision registry sat minV ≠ none := by
  intro h
  simp only [runBumpDecision] at h
  rcases hW1 : checkMonoRepoNeedBump registry sat minV (registry.length + 1) .Client
      ⟨[], false, [], []⟩ registry with _ | res
  · refine wave_sufficient registry ⟨[], false, [], []⟩ ?_ hW1
    exact Nat.lt_succ_of_le (unbumped_card_le registry [])
  · rw [hW1] at h
    rcases res with e | st1
    · simp at h
    · simp only at h
      by_cases hs : st1.serverNeedBump
      · rw [if_pos hs] at h
        obtain ⟨⟨t, hb, _⟩, _, _, _, _⟩ := wave_rel registry ⟨[], false, [], []⟩ st1 hW1
        refine wave_sufficient registry st1 ?_ h
        have hle : (unbumped registry st1.packageNeedBump).card ≤
            (unbumped registry ([] : List String)).card := by
          apply unbumped_antimono
          intro n hn
          simp at hn
        exact Nat.lt_succ_of_le (le_trans hle (unbumped_card_le registry []))
      · rw [if_neg hs] at h
        simp at h

/-! ### Each package is scanned at most once -/

/-- Invariant tying the ghost scan log to the bump set: the log has no
duplicates, and every standalone name in it is already in the bump set (so the
membership guard prevents it from ever being scanned again). -/
def ScanInv (registry : List Package) (st : BumpState) : Prop :=
  st.scanned.Nodup ∧
  ∀ n ∈ st.scanned, StandaloneName registry n → n ∈ st.packageNeedBump

theorem registry_name_inj {registry : List Package}
    (hN : (registry.map Package.name).Nodup) {p q : Package}
    (hp : p ∈ registry) (hq : q ∈ registry) (h : p.name = q.name) : p = q :=
  List.inj_on_of_nodup_map hN hp hq h

theorem checkDeps_scanInv {registry : List Package} {sat : String → String → Option Bool}
    {minV : String → Option String}
    {g : BumpState → Package → Option (Except BumpError BumpState)}
    (Hg : ∀ st pkg st', pkg ∈ registry → pkg.monoRepo = none →
      pkg.name ∈ st.packageNeedBump → pkg.name ∉ st.scanned → ScanInv registry st →
      g st pkg = some (.ok st') → ScanInv registry st') :
    ∀ deps st st', ScanInv registry st →
      checkDeps registry sat minV g st deps = some (.ok st') → ScanInv registry st' := by
  intro deps
  induction deps with
  | nil =>
    intro st st' hInv h
    simp only [checkDeps, Option.some.injEq, Except.ok.injEq] at h
    rw [← h]; exact hInv
  | cons d rest ih =>
    intro st st' hInv h
    rw [checkDeps] at h
    rcases hfind : findPkg registry d.name with _ | depPkg
    · rw [hfind] at h
      exact ih st st' hInv h
    · rw [hfind] at h
      obtain ⟨hdm, hdn⟩ := findPkg_mem hfind
      simp only at h
      rcases hsat : sat depPkg.version d.version with _ | b
      · simp [hsat] at h
      · rcases b with _ | _
        · simp only [hsat] at h
          rcases hmin : minV d.version with _ | m
          · simp [hmin] at h
          · simp only [hmin] at h
            rcases hsave : saveVersion st.depVersions d.name m depPkg.monoRepo with e | dv
            · simp [hsave] at h
            · simp only [hsave] at h
              exact ih { st with depVersions := dv } st' ⟨hInv.1, hInv.2⟩ h
        · simp only [hsat] at h
          rcases hmr : depPkg.monoRepo with _ | kind
          · simp only [hmr, if_pos rfl] at h
            by_cases hmem : depPkg.name ∈ st.packageNeedBump
            · rw [if_pos hmem] at h
              rcases hsave : saveVersion st.depVersions d.name depPkg.version none with e | dv
              · simp [hsave] at h
              · simp only [hsave] at h
                exact ih { st with depVersions := dv } st' ⟨hInv.1, hInv.2⟩ h
            · rw [if_neg hmem] at h
              rcases hG : g { st with
                  packageNeedBump := st.packageNeedBump ++ [depPkg.name] } depPkg with _ | res
              · rw [hG] at h; simp at h
              · rw [hG] at h
                rcases res with e | st3
                · simp at h
                · simp only at h
                  have hnotScanned : depPkg.name ∉ st.scanned := by
                    intro hin
                    exact hmem (hInv.2 depPkg.name hin ⟨depPkg, hdm, rfl, hmr⟩)
                  have hInv2 : ScanInv registry
                      { st with packageNeedBump := st.packageNeedBump ++ [depPkg.name] } := by
                    refine ⟨hInv.1, fun n hn hs => ?_⟩
                    exact List.mem_append.mpr (Or.inl (hInv.2 n hn hs))
                  have hInv3 : ScanInv registry st3 :=
                    Hg { st with packageNeedBump := st.packageNeedBump ++ [depPkg.name] }
                      depPkg st3 hdm hmr
                      (List.mem_append.mpr (Or.inr (List.mem_singleton.mpr rfl)))
                      hnotScanned hInv2 hG
                  rcases hsave : saveVersion st3.depVersions d.name depPkg.version none
                    with e | dv
                  · simp [hsave] at h
                  · simp only [hsave] at h
                    exact ih { st3 with depVersions := dv } st' ⟨hInv3.1, hInv3.2⟩ h
          · simp only [hmr] at h
            rcases kind with _ | _
            · rw [if_neg (by simp), if_neg (by simp)] at h
              rcases hsave : saveVersion st.depVersions d.name depPkg.version
                  (some MonoRepoKind.Client) with e | dv
              · simp [hsave] at h
              · simp only [hsave] at h
                exact ih { st with depVersions := dv } st' ⟨hInv.1, hInv.2⟩ h
            · rw [if_neg (by simp), if_pos rfl] at h
              rcases hsave : saveVersion st.depVersions d.name depPkg.version
                  (some MonoRepoKind.Server) with e | dv
              · simp [hsave] at h
              · simp only [hsave] at h
                exact ih { st with serverNeedBump := true, depVersions := dv } st'
                  ⟨hInv.1, hInv.2⟩ h

theorem check_scanInv {registry : List Package} {sat : String → String → Option Bool}
    {minV : String → Option String} (hN : (registry.map Package.name).Nodup) :
    ∀ f st pkg st', pkg ∈ registry →
      (pkg.monoRepo = none → pkg.name ∈ st.packageNeedBump) →
      pkg.name ∉ st.scanned → ScanInv registry st →
      checkPackageNeedBump registry sat minV f st pkg = some (.ok st') →
      ScanInv registry st' := by
  intro f
  induction f with
  | zero => intro st pkg st' _ _ _ _ h; simp [checkPackageNeedBump] at h
  | succ f ihf =>
    intro st pkg st' hpm hpin hpns hInv h
    rw [checkPackageNeedBump] at h
    have hInv1 : ScanInv registry { st with scanned := st.scanned ++ [pkg.name] } := by
      constructor
      · exact nodup_append_singleton hInv.1 hpns
      · intro n hn hs
        rcases List.mem_append.mp hn with hn' | hn'
        · exact hInv.2 n hn' hs
        · rcases List.mem_singleton.mp hn' with rfl
          rcases hs with ⟨q, hq, hqn, hqs⟩
          rcases hmrp : pkg.monoRepo with _ | k
          · exact hpin hmrp
          · have := registry_name_inj hN hq hpm hqn
            rw [this] at hqs
            rw [hqs] at hmrp
            exact absurd hmrp (by simp)
    exact checkDeps_scanInv
      (fun st2 q st3 hq hqn hqin hqns hInv' hG => ihf st2 q st3 hq (fun _ => hqin) hqns hInv' hG)
      _ _ _ hInv1 h

theorem wave_scanInv {registry : List Package} {sat : String → String → Option Bool}
    {minV : String → Option String} {f : Nat} {kind : MonoRepoKind}
    (hN : (registry.map Package.name).Nodup) :
    ∀ pkgs st st', (pkgs.map Package.name).Nodup → (∀ p, p ∈ pkgs → p ∈ registry) →
      (∀ p, p ∈ pkgs → p.monoRepo = some kind → p.name ∉ st.scanned) →
      ScanInv registry st →
      checkMonoRepoNeedBump registry sat minV f kind st pkgs = some (.ok st') →
      ScanInv registry st' := by
  intro pkgs
  induction pkgs with
  | nil =>
    intro st st' _ _ _ hInv h
    simp only [checkMonoRepoNeedBump, Option.some.injEq, Except.ok.injEq] at h
    rw [← h]; exact hInv
  | cons pkg rest ih =>
    intro st st' hnd hsub hns hInv h
    rw [checkMonoRepoNeedBump] at h
    by_cases hk : pkg.monoRepo = some kind
    · rw [if_pos hk] at h
      rcases hG : checkPackageNeedBump registry sat minV f st pkg with _ | res
      · rw [hG] at h; simp at h
      · rw [hG] at h
        rcases res with e | st1
        · simp at h
        · simp only at h
          have hInv1 : ScanInv registry st1 :=
            check_scanInv hN f st pkg st1 (hsub pkg (List.mem_cons_self pkg rest))
              (fun hmr => absurd hk (by simp [hmr]))
              (hns pkg (List.mem_cons_self pkg rest) hk) hInv hG
          refine ih st1 st' (List.Nodup.of_cons hnd)
            (fun p hp => hsub p (List.mem_cons_of_mem pkg hp)) ?_ hInv1 h
          intro p hp hpk hpIn
          obtain ⟨_, ⟨u, hc, hd⟩, _, _⟩ := check_rel f st pkg st1 hG
          rw [hc] at hpIn
          rcases List.mem_append.mp hpIn with hold | hnew
          · exact hns p (List.mem_cons_of_mem pkg hp) hpk hold
          · rcases hd p.name hnew with heq | ⟨q, hq, hqn, hqs⟩
            · rw [List.map_cons] at hnd
              exact List.Nodup.not_mem hnd (by
                rw [← heq]
                exact List.mem_map.mpr ⟨p, hp, rfl⟩)
            · have : q = p := registry_name_inj hN hq
                (hsub p (List.mem_cons_of_mem pkg hp)) hqn
              rw [this] at hqs
              rw [hqs] at hpk
              exact absurd hpk (by simp)
    · rw [if_neg hk] at h
      refine ih st st' (List.Nodup.of_cons hnd)
        (fun p hp => hsub p (List.mem_cons_of_mem pkg hp))
        (fun p hp hpk => hns p (List.mem_cons_of_mem pkg hp) hpk) hInv h

/-- Inversion of the top-level run: the Client wave always runs first; the
Server wave runs exactly when the Client wave set the flag. -/
theorem runBumpDecision_inv {registry : List Package} {sat : String → String → Option Bool}
    {minV : String → Option String} {st : BumpState}
    (h : runBumpDecision registry sat minV = some (.ok st)) :
    ∃ st1, checkMonoRepoNeedBump registry sat minV (registry.length + 1) .Client
        ⟨[], false, [], []⟩ registry = some (.ok st1) ∧
      ((st1.serverNeedBump = false ∧ st = st1) ∨
       (st1.serverNeedBump = true ∧
        checkMonoRepoNeedBump registry sat minV (registry.length + 1) .Server st1 registry =
          some (.ok st))) := by
  simp only [runBumpDecision] at h
  rcases hW1 : checkMonoRepoNeedBump registry sat minV (registry.length + 1) .Client
      ⟨[], false, [], []⟩ registry with _ | res
  · rw [hW1] at h; simp at h
  · rw [hW1] at h
    rcases res with e | st1
    · simp at h
    · simp only at h
      refine ⟨st1, rfl, ?_⟩
      by_cases hs : st1.serverNeedBump
      · rw [if_pos hs] at h
        exact Or.inr ⟨hs, h⟩
      · rw [if_neg hs] at h
        simp only [Option.some.injEq, Except.ok.injEq] at h
        exact Or.inl ⟨by simpa using hs, h.symm⟩

/-- A Server member's name is never in the scan log left by the Client wave. -/
theorem wave1_no_server_scanned {registry : List Package}
    {sat : String → String → Option Bool} {minV : String → Option String} {st1 : BumpState}
    (hN : (registry.map Package.name).Nodup)
    (hW1 : checkMonoRepoNeedBump registry sat minV (registry.length + 1) .Client
      ⟨[], false, [], []⟩ registry = some (.ok st1)) :
    ∀ p, p ∈ registry → p.monoRepo = some .Server → p.name ∉ st1.scanned := by
  intro p hp hpk hpIn
  obtain ⟨_, ⟨t, hc, hd⟩, _, _, _⟩ := wave_rel registry ⟨[], false, [], []⟩ st1 hW1
  rw [hc] at hpIn
  rcases List.mem_append.mp hpIn with hold | hnew
  · simp at hold
  · rcases hd p.name hnew with ⟨q, hq, hqn, hqs⟩ | ⟨q, hq, hqk, hqn⟩
    · have : q = p := registry_name_inj hN hq hp hqn
      rw [this] at hqs
      rw [hqs] at hpk
      exact absurd hpk (by simp)
    · have : q = p := registry_name_inj hN hq hp hqn
      rw [this] at hqk
      rw [hqk] at hpk
      exact absurd hpk (by simp)

/-- **C2**: on every finite package registry (with the names forming a proper
key set), including cyclic dependency graphs, the recursive traversal
terminates (the fuel `registry.length + 1` is never exhausted), every package
is in the final BumpSet at most once, and every package's dependency-edge scan
runs at most once (the ghost scan log has no duplicates), because a package
already present in the BumpSet is never re-queued. -/
theorem c2_traversal_terminates_each_scan_once
    (registry : List Package) (sat : String → String → Option Bool)
    (minV : String → Option String) (hN : (registry.map Package.name).Nodup) :
    runBumpDecision registry sat minV ≠ none ∧
    (∀ st, runBumpDecision registry sat minV = some (.ok st) →
      st.packageNeedBump.Nodup ∧ st.scanned.Nodup) := by
  refine ⟨runBumpDecision_terminates registry sat minV, ?_⟩
  intro st hrun
  obtain ⟨st1, hW1, hcase⟩ := runBumpDecision_inv hrun
  obtain ⟨_, _, _, hnd1, _⟩ := wave_rel registry ⟨[], false, [], []⟩ st1 hW1
  have hnodup1 : st1.packageNeedBump.Nodup := hnd1 (by simp)
  have hscanInv1 : ScanInv registry st1 :=
    wave_scanInv hN registry ⟨[], false, [], []⟩ st1 hN (fun _ hp => hp)
      (fun _ _ _ => by simp) ⟨List.nodup_nil, by simp⟩ hW1
  rcases hcase with ⟨_, rfl⟩ | ⟨hflag, hW2⟩
  · exact ⟨hnodup1, hscanInv1.1⟩
  · obtain ⟨_, _, _, hnd2, _⟩ := wave_rel registry st1 st hW2
    have hscanInv2 : ScanInv registry st :=
      wave_scanInv hN registry st1 st hN (fun _ hp => hp)
        (wave1_no_server_scanned hN hW1) hscanInv1 hW2
    exact ⟨hnd2 hnodup1, hscanInv2.1⟩

/-- A Client group member with a cyclic pair of standalone dependencies: used
to exercise the engine on a dependency cycle. -/
def cycleRegistry : List Package :=
  [⟨"c", "1.0.0", [⟨"a", "^1.0.0", false⟩], some .Client⟩,
   ⟨"a", "1.0.0", [⟨"b", "^1.0.0", false⟩], none⟩,
   ⟨"b", "1.0.0", [⟨"a", "^1.0.0", false⟩], none⟩]

theorem c2_witness :
    (cycleRegistry.map Package.name).Nodup ∧
    (runBumpDecision cycleRegistry satSpec minVSpec ≠ none ∧
     (∀ st, runBumpDecision cycleRegistry satSpec minVSpec = some (.ok st) →
       st.packageNeedBump.Nodup ∧ st.scanned.Nodup)) :=
  ⟨by decide,
   c2_traversal_terminates_each_scan_once cycleRegistry satSpec minVSpec (by decide)⟩

/-! ### Claims about `saveVersion` (C5, C6, C7) -/

theorem lookup_setKey_self (m : List (String × String)) (k v : String) :
    (setKey m k v).lookup k = some v := by
  induction m with
  | nil => simp [setKey, List.lookup]
  | cons hd tl ih =>
    rcases hd with ⟨k', v'⟩
    rw [setKey]
    by_cases hk : k' = k
    · rw [if_pos hk]
      simp [List.lookup]
    · rw [if_neg hk]
      rw [List.lookup]
      have : (k == k') = false := by
        rw [beq_eq_false_iff_ne]
        exact fun hc => hk hc.symm
      rw [this]
      exact ih

/-- **C5 counterexample**: recording a *different* version for the `Client`
group key through an excluded package name does not fail — it silently skips,
so "always fails with InconsistentVersionError" is false as stated. -/
theorem c5_counterexample :
    saveVersion [("Client", "1.0.0")] "@fluid-example/version-test-x" "2.0.0"
      (some .Client) = .ok [("Client", "1.0.0")] := rfl

/-- **C5 (amended)**: for a recording package name that does not match the
exclusion pattern and a group key currently holding a non-empty version,
recording a different version fails with `InconsistentVersionError` and
recording the same version succeeds silently, leaving the map unchanged.
(Excluded names record nothing; a held empty-string version is falsy in the
source's truthiness test and would be overwritten without error.) -/
theorem c5_group_record_consistency (versions : List (String × String))
    (name version v : String) (kind : MonoRepoKind)
    (hexcl : ¬ name.data.take 27 = "@fluid-example/version-test".data)
    (hheld : versions.lookup kind.str = some v) (hne : v ≠ "") :
    (version ≠ v → saveVersion versions name version (some kind) =
      .error (.inconsistentVersion name version)) ∧
    (version = v → saveVersion versions name version (some kind) = .ok versions) := by
  have htruthy : truthyAt versions kind.str = true := by
    rw [truthyAt, hheld]
    simpa using hne
  constructor
  · intro hdiff
    rw [saveVersion, if_neg hexcl, if_pos htruthy, if_pos]
    rw [hheld]
    simp
    exact fun hc => hdiff hc.symm
  · intro heq
    rw [saveVersion, if_neg hexcl, if_pos htruthy, if_neg]
    rw [hheld, heq]
    simp

theorem c5_witness :
    (¬ ("pkg".data.take 27 = "@fluid-example/version-test".data)) ∧
    ([("Client", "1.0.0")].lookup (MonoRepoKind.Client.str) = some "1.0.0") ∧
    ("1.0.0" ≠ "") ∧
    (("2.0.0" ≠ "1.0.0" →
        saveVersion [("Client", "1.0.0")] "pkg" "2.0.0" (some .Client) =
          .error (.inconsistentVersion "pkg" "2.0.0")) ∧
     ("2.0.0" = "1.0.0" →
        saveVersion [("Client", "1.0.0")] "pkg" "2.0.0" (some .Client) =
          .ok [("Client", "1.0.0")])) :=
  ⟨by decide, by decide, by decide,
   c5_group_record_consistency [("Client", "1.0.0")] "pkg" "2.0.0" "1.0.0" .Client
     (by decide) (by decide) (by decide)⟩

/-- **C6 counterexample**: recording a standalone package whose unit key
already holds a *different* version does not fail — the source's standalone
branch is an unconditional `versions[name] = version` overwrite. -/
theorem c6_counterexample :
    saveVersion [("a", "2.0.0")] "a" "1.0.0" none = .ok [("a", "1.0.0")] := rfl

/-- **C6 (amended)**: recording a standalone package (no group) never fails:
it unconditionally overwrites the unit key with the new version, even when a
different version was already recorded. -/
theorem c6_standalone_record_overwrites (versions : List (String × String))
    (name version : String) :
    saveVersion versions name version none = .ok (setKey versions name version) ∧
    (setKey versions name version).lookup name = some version :=
  ⟨rfl, lookup_setKey_self versions name version⟩

/-- **C7 counterexample**: a package matching the exclusion pattern *is*
recorded when it is standalone — the exclusion test sits behind the
`monoRepo === undefined` check, so only group members are skipped. -/
theorem c7_counterexample :
    saveVersion [] "@fluid-example/version-test-app" "1.0.0" none =
      .ok [("@fluid-example/version-test-app", "1.0.0")] := rfl

/-- **C7 (amended)**: a package whose name matches the exclusion pattern is
skipped (nothing written, no error) exactly when it is a mono-repo group
member; when it is standalone it is recorded like any other package. -/
theorem c7_exclusion_only_for_group_members (versions : List (String × String))
    (name version : String)
    (hexcl : name.data.take 27 = "@fluid-example/version-test".data) :
    (∀ kind, saveVersion versions name version (some kind) = .ok versions) ∧
    saveVersion versions name version none = .ok (setKey versions name version) := by
  refine ⟨fun kind => ?_, rfl⟩
  rw [saveVersion, if_pos hexcl]

theorem c7_witness :
    ("@fluid-example/version-test-app".data.take 27 =
      "@fluid-example/version-test".data) ∧
    ((∀ kind, saveVersion [("Client", "9.9.9")] "@fluid-example/version-test-app" "1.0.0"
        (some kind) = .ok [("Client", "9.9.9")]) ∧
     saveVersion [("Client", "9.9.9")] "@fluid-example/version-test-app" "1.0.0" none =
       .ok (setKey [("Client", "9.9.9")] "@fluid-example/version-test-app" "1.0.0")) :=
  ⟨by decide,
   c7_exclusion_only_for_group_members [("Client", "9.9.9")]
     "@fluid-example/version-test-app" "1.0.0" (by decide)⟩

/-! ### C3: a non-satisfied edge records the range minimum and bumps nothing -/

/-- **C3**: on a dependency edge whose dependency resolves but whose current
version does not satisfy the declared range, the edge scan records the
*minimum version of the declared range* `m` (not `depPkg.version`), the bump
set and server flag are untouched by the edge, and when the dependency is
standalone the dependency-versions map afterwards holds `m` under its name. -/
theorem c3_unsatisfied_edge_records_range_minimum
    (registry : List Package) (sat : String → String → Option Bool)
    (minV : String → Option String)
    (g : BumpState → Package → Option (Except BumpError BumpState))
    (st : BumpState) (d : Dep) (rest : List Dep) (depPkg : Package) (m : String)
    (hfind : findPkg registry d.name = some depPkg)
    (hsat : sat depPkg.version d.version = some false)
    (hmin : minV d.version = some m) :
    checkDeps registry sat minV g st (d :: rest) =
      (match saveVersion st.depVersions d.name m depPkg.monoRepo with
       | .error e => some (.error e)
       | .ok dv => checkDeps registry sat minV g { st with depVersions := dv } rest) ∧
    (∀ dv : List (String × String),
      ({ st with depVersions := dv } : BumpState).packageNeedBump = st.packageNeedBump ∧
      ({ st with depVersions := dv } : BumpState).serverNeedBump = st.serverNeedBump) ∧
    (depPkg.monoRepo = none →
      saveVersion st.depVersions d.name m depPkg.monoRepo =
        .ok (setKey st.depVersions d.name m) ∧
      (setKey st.depVersions d.name m).lookup d.name = some m) := by
  refine ⟨?_, fun dv => ⟨rfl, rfl⟩, fun hmr => ?_⟩
  · rw [checkDeps, hfind]
    simp only [hsat, hmin]
  · rw [hmr]
    exact ⟨rfl, lookup_setKey_self _ _ _⟩

/-- The one-package registry used to witness C3. -/
def pinnedRegistry : List Package := [⟨"core", "2.0.0", [], none⟩]

theorem c3_witness :
    (findPkg pinnedRegistry "core" = some ⟨"core", "2.0.0", [], none⟩) ∧
    (satSpec "2.0.0" "^1.0.0" = some false) ∧
    (minVSpec "^1.0.0" = some "1.0.0") ∧
    (checkDeps pinnedRegistry satSpec minVSpec (fun _ _ => none)
        ⟨[], false, [], []⟩ [⟨"core", "^1.0.0", false⟩] =
      (match saveVersion ([] : List (String × String)) "core" "1.0.0"
          (Package.monoRepo ⟨"core", "2.0.0", [], none⟩) with
       | .error e => some (.error e)
       | .ok dv => checkDeps pinnedRegistry satSpec minVSpec (fun _ _ => none)
           { (⟨[], false, [], []⟩ : BumpState) with depVersions := dv } []) ∧
     (∀ dv : List (String × String),
       ({ (⟨[], false, [], []⟩ : BumpState) with depVersions := dv } :
           BumpState).packageNeedBump = [] ∧
       ({ (⟨[], false, [], []⟩ : BumpState) with depVersions := dv } :
           BumpState).serverNeedBump = false) ∧
     (Package.monoRepo ⟨"core", "2.0.0", [], none⟩ = none →
       saveVersion ([] : List (String × String)) "core" "1.0.0"
           (Package.monoRepo ⟨"core", "2.0.0", [], none⟩) =
         .ok (setKey [] "core" "1.0.0") ∧
       (setKey [] "core" "1.0.0").lookup "core" = some "1.0.0")) :=
  ⟨by decide, by decide, by decide,
   c3_unsatisfied_edge_records_range_minimum pinnedRegistry satSpec minVSpec
     (fun _ _ => none) ⟨[], false, [], []⟩ ⟨"core", "^1.0.0", false⟩ []
     ⟨"core", "2.0.0", [], none⟩ "1.0.0" (by decide) (by decide) (by decide)⟩

/-! ### C4: Server dependencies set the flag; the flag gates the second wave -/

/-- **C4**: (i) a satisfied dependency edge into a Server mono-repo member
sets `serverNeedBump` instead of putting anything into the bump set (the
continuation state keeps `packageNeedBump` untouched and has the flag set);
(ii) in a completed run, the Client wave always runs, and the Server group is
scanned as a second wave exactly when the Client wave ended with the flag set:
if it was set every Server member's scan appears in the final log; if it was
not, the run stops at the Client-wave state, which scanned no Server member. -/
theorem c4_server_flag_and_second_wave :
    (∀ (registry : List Package) (sat : String → String → Option Bool)
       (minV : String → Option String)
       (g : BumpState → Package → Option (Except BumpError BumpState))
       (st : BumpState) (d : Dep) (rest : List Dep) (depPkg : Package),
       findPkg registry d.name = some depPkg →
       sat depPkg.version d.version = some true →
       depPkg.monoRepo = some .Server →
       checkDeps registry sat minV g st (d :: rest) =
         (match saveVersion st.depVersions d.name depPkg.version (some .Server) with
          | .error e => some (.error e)
          | .ok dv => checkDeps registry sat minV g
              { st with serverNeedBump := true, depVersions := dv } rest)) ∧
    (∀ (registry : List Package) (sat : String → String → Option Bool)
       (minV : String → Option String) (st : BumpState),
       (registry.map Package.name).Nodup →
       runBumpDecision registry sat minV = some (.ok st) →
       ∃ st1, checkMonoRepoNeedBump registry sat minV (registry.length + 1) .Client
           ⟨[], false, [], []⟩ registry = some (.ok st1) ∧
         (st1.serverNeedBump = true →
           ∀ p, p ∈ registry → p.monoRepo = some .Server → p.name ∈ st.scanned) ∧
         (st1.serverNeedBump = false →
           st = st1 ∧
           ∀ p, p ∈ registry → p.monoRepo = some .Server → p.name ∉ st.scanned)) := by
  constructor
  · intro registry sat minV g st d rest depPkg hfind hsat hmr
    rw [checkDeps, hfind]
    simp only [hsat, hmr]
    simp
  · intro registry sat minV st hN hrun
    obtain ⟨st1, hW1, hcase⟩ := runBumpDecision_inv hrun
    refine ⟨st1, hW1, ?_, ?_⟩
    · intro hflag p hp hpk
      rcases hcase with ⟨hf, _⟩ | ⟨_, hW2⟩
      · rw [hflag] at hf; exact absurd hf (by simp)
      · obtain ⟨_, _, _, _, hcov⟩ := wave_rel registry st1 st hW2
        exact hcov p hp hpk
    · intro hflag
      rcases hcase with ⟨_, rfl⟩ | ⟨hf, _⟩
      · exact ⟨rfl, fun p hp hpk => wave1_no_server_scanned hN hW1 p hp hpk⟩
      · rw [hflag] at hf; exact absurd hf (by simp)

/-- Client package depending on a satisfied Server member: used to witness
the C4 second wave. -/
def serverEdgeRegistry : List Package :=
  [⟨"client-pkg", "1.0.0", [⟨"server-lib", "^2.0.0", false⟩], some .Client⟩,
   ⟨"server-lib", "2.0.0", [], some .Server⟩]

theorem c4_witness :
    ((findPkg serverEdgeRegistry "server-lib" =
        some ⟨"server-lib", "2.0.0", [], some .Server⟩) ∧
     (satSpec "2.0.0" "^2.0.0" = some true) ∧
     ((⟨"server-lib", "2.0.0", [], some .Server⟩ : Package).monoRepo = some .Server) ∧
     checkDeps serverEdgeRegistry satSpec minVSpec (fun _ _ => none)
         ⟨[], false, [], []⟩ [⟨"server-lib", "^2.0.0", false⟩] =
       (match saveVersion ([] : List (String × String)) "server-lib" "2.0.0"
           (some .Server) with
        | .error e => some (.error e)
        | .ok dv => checkDeps serverEdgeRegistry satSpec minVSpec (fun _ _ => none)
            { (⟨[], false, [], []⟩ : BumpState) with
                serverNeedBump := true, depVersions := dv } [])) ∧
    ((serverEdgeRegistry.map Package.name).Nodup ∧
     runBumpDecision serverEdgeRegistry satSpec minVSpec =
       some (.ok ⟨[], true, [("Server", "2.0.0")], ["client-pkg", "server-lib"]⟩) ∧
     ∃ st1, checkMonoRepoNeedBump serverEdgeRegistry satSpec minVSpec
         (serverEdgeRegistry.length + 1) .Client ⟨[], false, [], []⟩ serverEdgeRegistry =
         some (.ok st1) ∧
       (st1.serverNeedBump = true →
         ∀ p, p ∈ serverEdgeRegistry → p.monoRepo = some .Server →
           p.name ∈ (⟨[], true, [("Server", "2.0.0")], ["client-pkg", "server-lib"]⟩ :
             BumpState).scanned) ∧
       (st1.serverNeedBump = false →
         (⟨[], true, [("Server", "2.0.0")], ["client-pkg", "server-lib"]⟩ : BumpState) = st1 ∧
         ∀ p, p ∈ serverEdgeRegistry → p.monoRepo = some .Server →
           p.name ∉ (⟨[], true, [("Server", "2.0.0")], ["client-pkg", "server-lib"]⟩ :
             BumpState).scanned)) :=
  ⟨⟨by decide, by decide, by decide,
    c4_server_flag_and_second_wave.1 serverEdgeRegistry satSpec minVSpec
      (fun _ _ => none) ⟨[], false, [], []⟩ ⟨"server-lib", "^2.0.0", false⟩ []
      ⟨"server-lib", "2.0.0", [], some .Server⟩ (by decide) (by decide) (by decide)⟩,
   by decide,
   rfl,
   c4_server_flag_and_second_wave.2 serverEdgeRegistry satSpec minVSpec
     ⟨[], true, [("Server", "2.0.0")], ["client-pkg", "server-lib"]⟩
     (by decide) rfl⟩

/-! ### C8: the spec's worked example -/

/-- The registry of the spec's example scenario: `core` and `utils` in the
Client group, standalone `tool`, with `utils` and `tool` both depending on
`core` through the satisfied range `^1.0.0`. -/
def clientToolRegistry : List Package :=
  [⟨"core", "1.2.0", [], some .Client⟩,
   ⟨"utils", "1.2.0", [⟨"core", "^1.0.0", false⟩], some .Client⟩,
   ⟨"tool", "0.5.0", [⟨"core", "^1.0.0", false⟩], none⟩]

/-- **C8 counterexample**: on the example registry the engine yields an
*empty* BumpSet — in particular `tool` is not in it, contradicting the claimed
`BumpSet = {tool}`.  (`tool` is a dependent of `core`, not a dependency of any
scanned package, and the traversal follows edges from a scanned package to its
dependencies.) -/
theorem c8_counterexample :
    runBumpDecision clientToolRegistry satSpec minVSpec =
      some (.ok ⟨[], false, [("Client", "1.2.0")], ["core", "utils"]⟩) ∧
    (Option.map
        (fun r => match r with
          | Except.ok st => st.packageNeedBump
          | Except.error _ => [])
        (runBumpDecision clientToolRegistry satSpec minVSpec) ≠ some ["tool"]) :=
  ⟨rfl, by decide⟩

/-- **C8 (amended)**: on the example registry, starting from the Client group,
the engine terminates with `BumpSet = ∅` and `serverAlsoNeedsBump = false`;
the dependency-versions side map records the Client group at `core`'s current
version, and only `core` and `utils` are scanned. -/
theorem c8_example_scenario :
    runBumpDecision clientToolRegistry satSpec minVSpec =
      some (.ok ⟨[], false, [("Client", "1.2.0")], ["core", "utils"]⟩) := rfl

/-! ### C10: the non-null assertion on `semver.minVersion` -/

/-- The only error `saveVersion` can raise is `inconsistentVersion`. -/
theorem saveVersion_error_shape {m : List (String × String)} {n v : String}
    {mr : Option MonoRepoKind} {e : BumpError} (h : saveVersion m n v mr = .error e) :
    e = .inconsistentVersion n v := by
  rcases mr with _ | kind
  · simp [saveVersion] at h
  · rw [saveVersion] at h
    split at h
    · simp at h
    · split at h
      · split at h
        · simp only [Except.error.injEq] at h
          exact h.symm
        · simp at h
      · simp at h


/-- The spec-modelled semver fragment satisfies the contract of C10: whenever
`satisfies` evaluates without error on a range, `minVersion` returns a value
on that range. -/
theorem satSpec_minVSpec_contract :
    ∀ v r b, satSpec v r = some b → (minVSpec r).isSome := by
  intro v r b h
  rw [satSpec] at h
  rw [minVSpec]
  rcases hv : parseVersion v with _ | t
  · rw [hv] at h; simp at h
  · rw [hv] at h
    rcases hf : rangeFloor r with _ | u
    · rw [hf] at h; simp at h
    · simp

theorem checkDeps_noNull {registry : List Package} {sat : String → String → Option Bool}
    {minV : String → Option String}
    {g : BumpState → Package → Option (Except BumpError BumpState)}
    (Hmin : ∀ v r b, sat v r = some b → (minV r).isSome)
    (Hg : ∀ st pkg rng, g st pkg ≠ some (.error (.nullAssertion rng))) :
    ∀ deps st rng, checkDeps registry sat minV g st deps ≠
      some (.error (.nullAssertion rng)) := by
  intro deps
  induction deps with
  | nil => intro st rng h; simp [checkDeps] at h
  | cons d rest ih =>
    intro st rng h
    rw [checkDeps] at h
    rcases hfind : findPkg registry d.name with _ | depPkg
    · rw [hfind] at h
      exact ih st rng h
    · rw [hfind] at h
      simp only at h
      rcases hsat : sat depPkg.version d.version with _ | b
      · simp [hsat] at h
      · rcases b with _ | _
        · simp only [hsat] at h
          rcases hmin : minV d.version with _ | m
          · have := Hmin depPkg.version d.version false hsat
            rw [hmin] at this
            simp at this
          · simp only [hmin] at h
            rcases hsave : saveVersion st.depVersions d.name m depPkg.monoRepo with e | dv
            · simp only [hsave, Option.some.injEq, Except.error.injEq] at h
              have := saveVersion_error_shape hsave
              rw [h] at this
              simp at this
            · simp only [hsave] at h
              exact ih { st with depVersions := dv } rng h
        · simp only [hsat] at h
          rcases hmr : depPkg.monoRepo with _ | kind
          · rw [hmr] at h
            rw [if_pos rfl] at h
            by_cases hmem : depPkg.name ∈ st.packageNeedBump
            · rw [if_pos hmem] at h
              rcases hsave : saveVersion st.depVersions d.name depPkg.version none with e | dv
              · simp only [hsave, Option.some.injEq, Except.error.injEq] at h
                have := saveVersion_error_shape hsave
                rw [h] at this
                simp at this
              · simp only [hsave] at h
                exact ih { st with depVersions := dv } rng h
            · rw [if_neg hmem] at h
              rcases hG : g { st with
                  packageNeedBump := st.packageNeedBump ++ [depPkg.name] } depPkg with _ | res
              · rw [hG] at h; simp at h
              · rw [hG] at h
                rcases res with e | st3
                · simp only [Option.some.injEq, Except.error.injEq] at h
                  rw [h] at hG
                  exact Hg _ _ _ hG
                · simp only at h
                  rcases hsave : saveVersion st3.depVersions d.name depPkg.version none
                    with e | dv
                  · simp [hsave] at h
                    have := saveVersion_error_shape hsave
                    rw [h] at this
                    simp at this
                  · simp only [hsave] at h
                    exact ih { st3 with depVersions := dv } rng h
          · simp only [hmr] at h
            rcases kind with _ | _
            · rw [if_neg (by simp), if_neg (by simp)] at h
              rcases hsave : saveVersion st.depVersions d.name depPkg.version
                  (some MonoRepoKind.Client) with e | dv
              · simp [hsave] at h
                have := saveVersion_error_shape hsave
                rw [h] at this
                simp at this
              · simp only [hsave] at h
                exact ih { st with depVersions := dv } rng h
            · rw [if_neg (by simp), if_pos rfl] at h
              rcases hsave : saveVersion st.depVersions d.name depPkg.version
                  (some MonoRepoKind.Server) with e | dv
              · simp [hsave] at h
                have := saveVersion_error_shape hsave
                rw [h] at this
                simp at this
              · simp only [hsave] at h
                exact ih { st with serverNeedBump := true, depVersions := dv } rng h

theorem check_noNull {registry : List Package} {sat : String → String → Option Bool}
    {minV : String → Option String}
    (Hmin : ∀ v r b, sat v r = some b → (minV r).isSome) :
    ∀ f st (pkg : Package) rng, checkPackageNeedBump registry sat minV f st pkg ≠
      some (.error (.nullAssertion rng)) := by
  intro f
  induction f with
  | zero => intro st pkg rng h; simp [checkPackageNeedBump] at h
  | succ f ihf =>
    intro st pkg rng h
    rw [checkPackageNeedBump] at h
    exact checkDeps_noNull Hmin (fun st2 q rng2 => ihf st2 q rng2) _ _ rng h

theorem wave_noNull {registry : List Package} {sat : String → String → Option Bool}
    {minV : String → Option String} {f : Nat} {kind : MonoRepoKind}
    (Hmin : ∀ v r b, sat v r = some b → (minV r).isSome) :
    ∀ pkgs st rng, checkMonoRepoNeedBump registry sat minV f kind st pkgs ≠
      some (.error (.nullAssertion rng)) := by
  intro pkgs
  induction pkgs with
  | nil => intro st rng h; simp [checkMonoRepoNeedBump] at h
  | cons pkg rest ih =>
    intro st rng h
    rw [checkMonoRepoNeedBump] at h
    by_cases hk : pkg.monoRepo = some kind
    · rw [if_pos hk] at h
      rcases hG : checkPackageNeedBump registry sat minV f st pkg with _ | res
      · rw [hG] at h; simp at h
      · rw [hG] at h
        rcases res with e | st1
        · simp only [Option.some.injEq, Except.error.injEq] at h
          rw [h] at hG
          exact check_noNull Hmin f st pkg rng hG
        · simp only at h
          exact ih st1 rng h
    · rw [if_neg hk] at h
      exact ih st rng h

/-- **C10**: whenever the semver primitive satisfies the contract "if
`satisfies` evaluates without error on a range then `minVersion` returns a
value on that range", the engine's non-null assertion on
`semver.minVersion(version)!` is unreachable: no run can end in a
`nullAssertion` error.  The spec-modelled concrete fragment
(`satSpec`/`minVSpec`) satisfies that contract
(`satSpec_minVSpec_contract`). -/
theorem c10_null_dereference_unreachable (registry : List Package)
    (sat : String → String → Option Bool) (minV : String → Option String)
    (Hmin : ∀ v r b, sat v r = some b → (minV r).isSome) :
    ∀ rng, runBumpDecision registry sat minV ≠ some (.error (.nullAssertion rng)) := by
  intro rng h
  simp only [runBumpDecision] at h
  rcases hW1 : checkMonoRepoNeedBump registry sat minV (registry.length + 1) .Client
      ⟨[], false, [], []⟩ registry with _ | res
  · rw [hW1] at h; simp at h
  · rw [hW1] at h
    rcases res with e | st1
    · simp only [Option.some.injEq, Except.error.injEq] at h
      rw [h] at hW1
      exact wave_noNull Hmin registry ⟨[], false, [], []⟩ rng hW1
    · simp only at h
      by_cases hs : st1.serverNeedBump
      · rw [if_pos hs] at h
        exact wave_noNull Hmin registry st1 rng h
      · rw [if_neg hs] at h
        simp at h

theorem c10_witness :
    (∀ v r b, satSpec v r = some b → (minVSpec r).isSome) ∧
    (∀ rng, runBumpDecision cycleRegistry satSpec minVSpec ≠
      some (.error (.nullAssertion rng))) :=
  ⟨satSpec_minVSpec_contract,
   c10_null_dereference_unreachable cycleRegistry satSpec minVSpec
     satSpec_minVSpec_contract⟩

/-! ### C9: decision-phase errors precede all external mutating commands -/

/-- **C9**: every error of the decision phase (traversal
`InconsistentVersionError`/`MalformedRangeError`/null-assertion, the generator
recordings, and the `oldVersions` snapshot) aborts `main` with an empty
command trace — no external mutating command has been executed; conversely a
run that executed any command had a successfully completed decision phase. -/
theorem c9_decision_errors_precede_external_commands
    (registry : List Package) (sat : String → String → Option Bool)
    (minV : String → Option String) (generatorPackage templatePackage : String × String)
    (registryAfterReload : List Package) (generatorAfter templateAfter : String × String) :
    (∀ e, decisionPhase registry sat minV generatorPackage templatePackage =
        some (.error e) →
      mainModel registry sat minV generatorPackage templatePackage registryAfterReload
        generatorAfter templateAfter = some ([], .error e)) ∧
    (∀ cmds res, mainModel registry sat minV generatorPackage templatePackage
        registryAfterReload generatorAfter templateAfter = some (cmds, res) →
      cmds ≠ [] →
      ∃ st, decisionPhase registry sat minV generatorPackage templatePackage =
        some (.ok st)) := by
  constructor
  · intro e he
    rw [mainModel, he]
  · intro cmds res hm hne
    rw [mainModel] at hm
    rcases hd : decisionPhase registry sat minV generatorPackage templatePackage with _ | r
    · rw [hd] at hm; simp at hm
    · rw [hd] at hm
      rcases r with e | st
      · simp only [Option.some.injEq, Prod.mk.injEq] at hm
        exact absurd hm.1.symm hne
      · exact ⟨st, rfl⟩

/-- Two Client members with divergent versions: `collectVersions` in the
decision phase fails, so no command may run. -/
def divergentClientRegistry : List Package :=
  [⟨"a", "1.0.0", [], some .Client⟩, ⟨"b", "2.0.0", [], some .Client⟩]

theorem c9_witness :
    decisionPhase divergentClientRegistry satSpec minVSpec ("gen", "0.0.1")
      ("tmpl", "0.0.1") = some (.error (.inconsistentVersion "b" "2.0.0")) ∧
    mainModel divergentClientRegistry satSpec minVSpec ("gen", "0.0.1") ("tmpl", "0.0.1")
      divergentClientRegistry ("gen", "0.0.1") ("tmpl", "0.0.1") =
      some ([], .error (.inconsistentVersion "b" "2.0.0")) :=
  ⟨rfl,
   (c9_decision_errors_precede_external_commands divergentClientRegistry satSpec minVSpec
       ("gen", "0.0.1") ("tmpl", "0.0.1") divergentClientRegistry ("gen", "0.0.1")
       ("tmpl", "0.0.1")).1 (.inconsistentVersion "b" "2.0.0") rfl⟩

/-! ### C1: the BumpSet is the reachable set of standalone packages -/

/-- Plain monotonicity facts between two states. -/
def StMono (st st' : BumpState) : Prop :=
  (∀ n, n ∈ st.packageNeedBump → n ∈ st'.packageNeedBump) ∧
  (st.serverNeedBump = true → st'.serverNeedBump = true) ∧
  (∀ n, n ∈ st.scanned → n ∈ st'.scanned)

theorem stMono_of_checkOkRel {registry : List Package} {pkg : Package} {st st' : BumpState}
    (h : CheckOkRel registry pkg st st') : StMono st st' := by
  obtain ⟨⟨t, hb, _⟩, ⟨u, hc, _⟩, hf, _⟩ := h
  exact ⟨fun n hn => by rw [hb]; exact List.mem_append.mpr (Or.inl hn), hf,
    fun n hn => by rw [hc]; exact List.mem_append.mpr (Or.inl hn)⟩

theorem stMono_of_engineRel {registry : List Package} {st st' : BumpState}
    (h : EngineRel registry st st') : StMono st st' := by
  obtain ⟨⟨t, hb, _⟩, ⟨u, hc, _⟩, hf, _⟩ := h
  exact ⟨fun n hn => by rw [hb]; exact List.mem_append.mpr (Or.inl hn), hf,
    fun n hn => by rw [hc]; exact List.mem_append.mpr (Or.inl hn)⟩

theorem stMono_of_waveRel {registry : List Package} {kind : MonoRepoKind}
    {pkgs : List Package} {st st' : BumpState}
    (h : WaveRel registry kind pkgs st st') : StMono st st' := by
  obtain ⟨⟨t, hb, _⟩, ⟨u, hc, _⟩, hf, _, _⟩ := h
  exact ⟨fun n hn => by rw [hb]; exact List.mem_append.mpr (Or.inl hn), hf,
    fun n hn => by rw [hc]; exact List.mem_append.mpr (Or.inl hn)⟩

theorem stMono_trans {a b c : BumpState} (h1 : StMono a b) (h2 : StMono b c) :
    StMono a c :=
  ⟨fun n hn => h2.1 n (h1.1 n hn), fun hf => h2.2.1 (h1.2.1 hf),
   fun n hn => h2.2.2 n (h1.2.2 n hn)⟩

theorem stMono_refl (st : BumpState) : StMono st st :=
  ⟨fun _ hn => hn, fun hf => hf, fun _ hn => hn⟩

/-- All of `p`'s satisfied dependency edges have been acted on in `st`:
standalone targets are in the bump set, Server targets forced the flag. -/
def DepsDone (registry : List Package) (sat : String → String → Option Bool)
    (st : BumpState) (p : Package) : Prop :=
  ∀ d, d ∈ p.combinedDependencies → ∀ q, findPkg registry d.name = some q →
    sat q.version d.version = some true →
    (q.monoRepo = none → q.name ∈ st.packageNeedBump) ∧
    (q.monoRepo = some .Server → st.serverNeedBump = true)

/-- `DepsDone` for whichever registry package carries the name `n`. -/
def DoneNamed (registry : List Package) (sat : String → String → Option Bool)
    (st : BumpState) (n : String) : Prop :=
  ∀ p, p ∈ registry → p.name = n → DepsDone registry sat st p

theorem depsDone_mono {registry : List Package} {sat : String → String → Option Bool}
    {st st' : BumpState} {p : Package} (hm : StMono st st')
    (h : DepsDone registry sat st p) : DepsDone registry sat st' p := by
  intro d hd q hq hs
  obtain ⟨h1, h2⟩ := h d hd q hq hs
  exact ⟨fun hmr => hm.1 _ (h1 hmr), fun hmr => hm.2.1 (h2 hmr)⟩

theorem doneNamed_mono {registry : List Package} {sat : String → String → Option Bool}
    {st st' : BumpState} {n : String} (hm : StMono st st')
    (h : DoneNamed registry sat st n) : DoneNamed registry sat st' n :=
  fun p hp hpn => depsDone_mono hm (h p hp hpn)

theorem checkDeps_done {registry : List Package} {sat : String → String → Option Bool}
    {minV : String → Option String}
    {g : BumpState → Package → Option (Except BumpError BumpState)}
    (HgRel : ∀ st pkg st', g st pkg = some (.ok st') → CheckOkRel registry pkg st st')
    (HgDone : ∀ st pkg st', pkg ∈ registry → pkg.monoRepo = none →
      g st pkg = some (.ok st') →
      ∀ n, n ∈ st'.scanned → n ∈ st.scanned ∨ DoneNamed registry sat st' n) :
    ∀ deps st st', checkDeps registry sat minV g st deps = some (.ok st') →
      (∀ d, d ∈ deps → ∀ q, findPkg registry d.name = some q →
        sat q.version d.version = some true →
        (q.monoRepo = none → q.name ∈ st'.packageNeedBump) ∧
        (q.monoRepo = some .Server → st'.serverNeedBump = true)) ∧
      (∀ n, n ∈ st'.scanned → n ∈ st.scanned ∨ DoneNamed registry sat st' n) := by
  have hEng : ∀ st pkg st', pkg ∈ registry → pkg.monoRepo = none →
      g st pkg = some (.ok st') → EngineRel registry st st' :=
    fun st pkg st' hp hn hG => engineRel_of_checkOkRel hp hn (HgRel st pkg st' hG)
  intro deps
  induction deps with
  | nil =>
    intro st st' h
    simp only [checkDeps, Option.some.injEq, Except.ok.injEq] at h
    rw [← h]
    exact ⟨fun d hd => absurd hd (List.not_mem_nil d), fun n hn => Or.inl hn⟩
  | cons d rest ih =>
    intro st st' h
    rw [checkDeps] at h
    rcases hfind : findPkg registry d.name with _ | depPkg
    · rw [hfind] at h
      obtain ⟨hP, hQ⟩ := ih st st' h
      refine ⟨fun d' hd' q hq hs => ?_, hQ⟩
      rcases List.mem_cons.mp hd' with rfl | hd''
      · rw [hfind] at hq; exact absurd hq (by simp)
      · exact hP d' hd'' q hq hs
    · rw [hfind] at h
      obtain ⟨hdm, hdn⟩ := findPkg_mem hfind
      simp only at h
      rcases hsat : sat depPkg.version d.version with _ | b
      · simp [hsat] at h
      · rcases b with _ | _
        · -- not satisfied: the head edge imposes nothing
          simp only [hsat] at h
          rcases hmin : minV d.version with _ | m
          · simp [hmin] at h
          · simp only [hmin] at h
            rcases hsave : saveVersion st.depVersions d.name m depPkg.monoRepo with e | dv
            · simp [hsave] at h
            · simp only [hsave] at h
              obtain ⟨hP, hQ⟩ := ih { st with depVersions := dv } st' h
              refine ⟨fun d' hd' q hq hs => ?_, hQ⟩
              rcases List.mem_cons.mp hd' with rfl | hd''
              · rw [hfind] at hq
                injection hq with hq
                rw [← hq] at hs
                rw [hs] at hsat
                exact absurd hsat (by simp)
              · exact hP d' hd'' q hq hs
        · simp only [hsat] at h
          rcases hmr : depPkg.monoRepo with _ | kind
          · rw [hmr] at h
            rw [if_pos rfl] at h
            by_cases hmem : depPkg.name ∈ st.packageNeedBump
            · rw [if_pos hmem] at h
              rcases hsave : saveVersion st.depVersions d.name depPkg.version none with e | dv
              · simp [hsave] at h
              · simp only [hsave] at h
                obtain ⟨hP, hQ⟩ := ih { st with depVersions := dv } st' h
                have hmono : StMono { st with depVersions := dv } st' :=
                  stMono_of_engineRel (checkDeps_rel hEng rest _ _ h)
                refine ⟨fun d' hd' q hq hs => ?_, hQ⟩
                rcases List.mem_cons.mp hd' with rfl | hd''
                · rw [hfind] at hq
                  injection hq with hq
                  rw [← hq]
                  refine ⟨fun _ => hmono.1 _ hmem, fun hsv => ?_⟩
                  rw [hmr] at hsv
                  exact absurd hsv (by simp)
                · exact hP d' hd'' q hq hs
            · rw [if_neg hmem] at h
              rcases hG : g { st with
                  packageNeedBump := st.packageNeedBump ++ [depPkg.name] } depPkg with _ | res
              · rw [hG] at h; simp at h
              · rw [hG] at h
                rcases res with e | st3
                · simp at h
                · simp only at h
                  rcases hsave : saveVersion st3.depVersions d.name depPkg.version none
                    with e | dv
                  · simp [hsave] at h
                  · simp only [hsave] at h
                    obtain ⟨hP, hQ⟩ := ih { st3 with depVersions := dv } st' h
                    have hmono23 : StMono { st with
                        packageNeedBump := st.packageNeedBump ++ [depPkg.name] } st3 :=
                      stMono_of_checkOkRel (HgRel _ _ _ hG)
                    have hmono3' : StMono st3 st' := by
                      refine stMono_trans ?_
                        (stMono_of_engineRel (checkDeps_rel hEng rest _ _ h))
                      exact stMono_refl _
                    refine ⟨fun d' hd' q hq hs => ?_, fun n hn => ?_⟩
                    · rcases List.mem_cons.mp hd' with rfl | hd''
                      · rw [hfind] at hq
                        injection hq with hq
                        rw [← hq]
                        refine ⟨fun _ => ?_, fun hsv => ?_⟩
                        · exact hmono3'.1 _ (hmono23.1 _
                            (List.mem_append.mpr (Or.inr (List.mem_singleton.mpr rfl))))
                        · rw [hmr] at hsv
                          exact absurd hsv (by simp)
                      · exact hP d' hd'' q hq hs
                    · rcases hQ n hn with hn' | hdone
                      · rcases HgDone _ _ _ hdm hmr hG n hn' with hn'' | hdone3
                        · exact Or.inl hn''
                        · exact Or.inr (doneNamed_mono hmono3' hdone3)
                      · exact Or.inr hdone
          · rw [hmr] at h
            rcases kind with _ | _
            · rw [if_neg (by simp), if_neg (by simp)] at h
              rcases hsave : saveVersion st.depVersions d.name depPkg.version
                  (some MonoRepoKind.Client) with e | dv
              · simp [hsave] at h
              · simp only [hsave] at h
                obtain ⟨hP, hQ⟩ := ih { st with depVersions := dv } st' h
                refine ⟨fun d' hd' q hq hs => ?_, hQ⟩
                rcases List.mem_cons.mp hd' with rfl | hd''
                · rw [hfind] at hq
                  injection hq with hq
                  rw [← hq]
                  refine ⟨fun hsv => ?_, fun hsv => ?_⟩
                  · rw [hmr] at hsv; exact absurd hsv (by simp)
                  · rw [hmr] at hsv
                    exact absurd hsv (by simp)
                · exact hP d' hd'' q hq hs
            · rw [if_neg (by simp), if_pos rfl] at h
              rcases hsave : saveVersion st.depVersions d.name depPkg.version
                  (some MonoRepoKind.Server) with e | dv
              · simp [hsave] at h
              · simp only [hsave] at h
                obtain ⟨hP, hQ⟩ := ih { st with serverNeedBump := true, depVersions := dv }
                  st' h
                have hmono : StMono { st with serverNeedBump := true, depVersions := dv } st' :=
                  stMono_of_engineRel (checkDeps_rel hEng rest _ _ h)
                refine ⟨fun d' hd' q hq hs => ?_, hQ⟩
                rcases List.mem_cons.mp hd' with rfl | hd''
                · rw [hfind] at hq
                  injection hq with hq
                  rw [← hq]
                  refine ⟨fun hsv => ?_, fun _ => hmono.2.1 rfl⟩
                  rw [hmr] at hsv
                  exact absurd hsv (by simp)
                · exact hP d' hd'' q hq hs

theorem check_done {registry : List Package} {sat : String → String → Option Bool}
    {minV : String → Option String} (hN : (registry.map Package.name).Nodup) :
    ∀ f st pkg st', pkg ∈ registry →
      checkPackageNeedBump registry sat minV f st pkg = some (.ok st') →
      ∀ n, n ∈ st'.scanned → n ∈ st.scanned ∨ DoneNamed registry sat st' n := by
  intro f
  induction f with
  | zero => intro st pkg st' _ h; simp [checkPackageNeedBump] at h
  | succ f ihf =>
    intro st pkg st' hpm h
    rw [checkPackageNeedBump] at h
    obtain ⟨hP, hQ⟩ := checkDeps_done (fun st2 q st3 hG => check_rel f st2 q st3 hG)
      (fun st2 q st3 hq hqn hG => ihf st2 q st3 hq hG) _ _ _ h
    intro n hn
    rcases hQ n hn with hn1 | hdone
    · rcases List.mem_append.mp hn1 with hold | hself
      · exact Or.inl hold
      · rcases List.mem_singleton.mp hself with rfl
        refine Or.inr (fun p hp hpn => ?_)
        have : p = pkg := registry_name_inj hN hp hpm hpn
        rw [this]
        exact fun d hd q hq hs => hP d hd q hq hs
    · exact Or.inr hdone

theorem wave_done {registry : List Package} {sat : String → String → Option Bool}
    {minV : String → Option String} {f : Nat} {kind : MonoRepoKind}
    (hN : (registry.map Package.name).Nodup) :
    ∀ pkgs st st', (∀ p, p ∈ pkgs → p ∈ registry) →
      checkMonoRepoNeedBump registry sat minV f kind st pkgs = some (.ok st') →
      ∀ n, n ∈ st'.scanned → n ∈ st.scanned ∨ DoneNamed registry sat st' n := by
  intro pkgs
  induction pkgs with
  | nil =>
    intro st st' _ h
    simp only [checkMonoRepoNeedBump, Option.some.injEq, Except.ok.injEq] at h
    rw [← h]
    exact fun n hn => Or.inl hn
  | cons pkg rest ih =>
    intro st st' hsub h
    rw [checkMonoRepoNeedBump] at h
    by_cases hk : pkg.monoRepo = some kind
    · rw [if_pos hk] at h
      rcases hG : checkPackageNeedBump registry sat minV f st pkg with _ | res
      · rw [hG] at h; simp at h
      · rw [hG] at h
        rcases res with e | st1
        · simp at h
        · simp only at h
          have hmono : StMono st1 st' := stMono_of_waveRel (wave_rel rest st1 st' h)
          intro n hn
          rcases ih st1 st' (fun p hp => hsub p (List.mem_cons_of_mem pkg hp)) h n hn
            with hn1 | hdone
          · rcases check_done hN f st pkg st1 (hsub pkg (List.mem_cons_self pkg rest))
              hG n hn1 with hn0 | hdone1
            · exact Or.inl hn0
            · exact Or.inr (doneNamed_mono hmono hdone1)
          · exact Or.inr hdone
    · rw [if_neg hk] at h
      exact ih st st' (fun p hp => hsub p (List.mem_cons_of_mem pkg hp)) h

theorem checkDeps_bumpScanned {registry : List Package} {sat : String → String → Option Bool}
    {minV : String → Option String}
    {g : BumpState → Package → Option (Except BumpError BumpState)}
    (Hg : ∀ st pkg st', g st pkg = some (.ok st') →
      (∀ n, n ∈ st.packageNeedBump → n ∈ st.scanned ∨ n = pkg.name) →
      ∀ n, n ∈ st'.packageNeedBump → n ∈ st'.scanned) :
    ∀ deps st st', checkDeps registry sat minV g st deps = some (.ok st') →
      (∀ n, n ∈ st.packageNeedBump → n ∈ st.scanned) →
      ∀ n, n ∈ st'.packageNeedBump → n ∈ st'.scanned := by
  intro deps
  induction deps with
  | nil =>
    intro st st' h hbs
    simp only [checkDeps, Option.some.injEq, Except.ok.injEq] at h
    rw [← h]
    exact hbs
  | cons d rest ih =>
    intro st st' h hbs
    rw [checkDeps] at h
    rcases hfind : findPkg registry d.name with _ | depPkg
    · rw [hfind] at h
      exact ih st st' h hbs
    · rw [hfind] at h
      simp only at h
      rcases hsat : sat depPkg.version d.version with _ | b
      · simp [hsat] at h
      · rcases b with _ | _
        · simp only [hsat] at h
          rcases hmin : minV d.version with _ | m
          · simp [hmin] at h
          · simp only [hmin] at h
            rcases hsave : saveVersion st.depVersions d.name m depPkg.monoRepo with e | dv
            · simp [hsave] at h
            · simp only [hsave] at h
              exact ih { st with depVersions := dv } st' h hbs
        · simp only [hsat] at h
          rcases hmr : depPkg.monoRepo with _ | kind
          · rw [hmr] at h
            rw [if_pos rfl] at h
            by_cases hmem : depPkg.name ∈ st.packageNeedBump
            · rw [if_pos hmem] at h
              rcases hsave : saveVersion st.depVersions d.name depPkg.version none with e | dv
              · simp [hsave] at h
              · simp only [hsave] at h
                exact ih { st with depVersions := dv } st' h hbs
            · rw [if_neg hmem] at h
              rcases hG : g { st with
                  packageNeedBump := st.packageNeedBump ++ [depPkg.name] } depPkg with _ | res
              · rw [hG] at h; simp at h
              · rw [hG] at h
                rcases res with e | st3
                · simp at h
                · simp only at h
                  rcases hsave : saveVersion st3.depVersions d.name depPkg.version none
                    with e | dv
                  · simp [hsave] at h
                  · simp only [hsave] at h
                    have h3 : ∀ n, n ∈ st3.packageNeedBump → n ∈ st3.scanned := by
                      refine Hg _ _ _ hG ?_
                      intro n hn
                      rcases List.mem_append.mp hn with hn' | hn'
                      · exact Or.inl (hbs n hn')
                      · exact Or.inr (List.mem_singleton.mp hn')
                    exact ih { st3 with depVersions := dv } st' h h3
          · rw [hmr] at h
            rcases kind with _ | _
            · rw [if_neg (by simp), if_neg (by simp)] at h
              rcases hsave : saveVersion st.depVersions d.name depPkg.version
                  (some MonoRepoKind.Client) with e | dv
              · simp [hsave] at h
              · simp only [hsave] at h
                exact ih { st with depVersions := dv } st' h hbs
            · rw [if_neg (by simp), if_pos rfl] at h
              rcases hsave : saveVersion st.depVersions d.name depPkg.version
                  (some MonoRepoKind.Server) with e | dv
              · simp [hsave] at h
              · simp only [hsave] at h
                exact ih { st with serverNeedBump := true, depVersions := dv } st' h hbs

theorem check_bumpScanned {registry : List Package} {sat : String → String → Option Bool}
    {minV : String → Option String} :
    ∀ f st pkg st', checkPackageNeedBump registry sat minV f st pkg = some (.ok st') →
      (∀ n, n ∈ st.packageNeedBump → n ∈ st.scanned ∨ n = pkg.name) →
      ∀ n, n ∈ st'.packageNeedBump → n ∈ st'.scanned := by
  intro f
  induction f with
  | zero => intro st pkg st' h; simp [checkPackageNeedBump] at h
  | succ f ihf =>
    intro st pkg st' h hbs
    rw [checkPackageNeedBump] at h
    refine checkDeps_bumpScanned (fun st2 q st3 hG hbs2 => ihf st2 q st3 hG hbs2) _ _ _ h ?_
    intro n hn
    rcases hbs n hn with hn' | rfl
    · exact List.mem_append.mpr (Or.inl hn')
    · exact List.mem_append.mpr (Or.inr (List.mem_singleton.mpr rfl))

theorem wave_bumpScanned {registry : List Package} {sat : String → String → Option Bool}
    {minV : String → Option String} {f : Nat} {kind : MonoRepoKind} :
    ∀ pkgs st st', checkMonoRepoNeedBump registry sat minV f kind st pkgs = some (.ok st') →
      (∀ n, n ∈ st.packageNeedBump → n ∈ st.scanned) →
      ∀ n, n ∈ st'.packageNeedBump → n ∈ st'.scanned := by
  intro pkgs
  induction pkgs with
  | nil =>
    intro st st' h hbs
    simp only [checkMonoRepoNeedBump, Option.some.injEq, Except.ok.injEq] at h
    rw [← h]
    exact hbs
  | cons pkg rest ih =>
    intro st st' h hbs
    rw [checkMonoRepoNeedBump] at h
    by_cases hk : pkg.monoRepo = some kind
    · rw [if_pos hk] at h
      rcases hG : checkPackageNeedBump registry sat minV f st pkg with _ | res
      · rw [hG] at h; simp at h
      · rw [hG] at h
        rcases res with e | st1
        · simp at h
        · simp only at h
          exact ih st1 st' h (check_bumpScanned f st pkg st1 hG
            (fun n hn => Or.inl (hbs n hn)))
    · rw [if_neg hk] at h
      exact ih st st' h hbs

theorem mem_membersOf {registry : List Package} {kind : MonoRepoKind} {n : String} :
    n ∈ membersOf registry kind ↔
      ∃ p, p ∈ registry ∧ p.monoRepo = some kind ∧ p.name = n := by
  simp only [membersOf, List.mem_map, List.mem_filter, decide_eq_true_eq]
  constructor
  · rintro ⟨p, ⟨hp, hk⟩, hn⟩
    exact ⟨p, hp, hk, hn⟩
  · rintro ⟨p, hp, hk, hn⟩
    exact ⟨p, ⟨hp, hk⟩, hn⟩

/-- Every name in the final scan log has all its satisfied edges acted on. -/
theorem run_done {registry : List Package} {sat : String → String → Option Bool}
    {minV : String → Option String} {st : BumpState}
    (hN : (registry.map Package.name).Nodup)
    (hrun : runBumpDecision registry sat minV = some (.ok st)) :
    ∀ n, n ∈ st.scanned → DoneNamed registry sat st n := by
  obtain ⟨st1, hW1, hcase⟩ := runBumpDecision_inv hrun
  rcases hcase with ⟨_, heq⟩ | ⟨hflag, hW2⟩
  · intro n hn
    rw [heq] at hn ⊢
    rcases wave_done hN registry ⟨[], false, [], []⟩ st1 (fun _ hp => hp) hW1 n hn
      with hn0 | hdone
    · simp at hn0
    · exact hdone
  · intro n hn
    rcases wave_done hN registry st1 st (fun _ hp => hp) hW2 n hn with hn1 | hdone
    · have hmono : StMono st1 st := stMono_of_waveRel (wave_rel registry st1 st hW2)
      rcases wave_done hN registry ⟨[], false, [], []⟩ st1 (fun _ hp => hp) hW1 n hn1
        with hn0 | hdone1
      · simp at hn0
      · exact doneNamed_mono hmono hdone1
    · exact hdone

/-- Every name in the final bump set is in the final scan log. -/
theorem run_bumpScanned {registry : List Package} {sat : String → String → Option Bool}
    {minV : String → Option String} {st : BumpState}
    (hrun : runBumpDecision registry sat minV = some (.ok st)) :
    ∀ n, n ∈ st.packageNeedBump → n ∈ st.scanned := by
  obtain ⟨st1, hW1, hcase⟩ := runBumpDecision_inv hrun
  have h1 : ∀ n, n ∈ st1.packageNeedBump → n ∈ st1.scanned :=
    wave_bumpScanned registry ⟨[], false, [], []⟩ st1 hW1 (fun n hn => by simp at hn)
  rcases hcase with ⟨_, rfl⟩ | ⟨_, hW2⟩
  · exact h1
  · exact wave_bumpScanned registry st1 st hW2 h1

/-- Every Client member's name is in the final scan log. -/
theorem run_client_scanned {registry : List Package} {sat : String → String → Option Bool}
    {minV : String → Option String} {st : BumpState}
    (hrun : runBumpDecision registry sat minV = some (.ok st)) :
    ∀ p, p ∈ registry → p.monoRepo = some .Client → p.name ∈ st.scanned := by
  obtain ⟨st1, hW1, hcase⟩ := runBumpDecision_inv hrun
  obtain ⟨_, _, _, _, hcov⟩ := wave_rel registry ⟨[], false, [], []⟩ st1 hW1
  rcases hcase with ⟨_, rfl⟩ | ⟨_, hW2⟩
  · exact fun p hp hk => hcov p hp hk
  · have hmono : StMono st1 st := stMono_of_waveRel (wave_rel registry st1 st hW2)
    exact fun p hp hk => hmono.2.2 _ (hcov p hp hk)

/-- When the final flag is set, every Server member's name is in the final
scan log. -/
theorem run_server_scanned {registry : List Package} {sat : String → String → Option Bool}
    {minV : String → Option String} {st : BumpState}
    (hrun : runBumpDecision registry sat minV = some (.ok st))
    (hflag : st.serverNeedBump = true) :
    ∀ p, p ∈ registry → p.monoRepo = some .Server → p.name ∈ st.scanned := by
  obtain ⟨st1, hW1, hcase⟩ := runBumpDecision_inv hrun
  rcases hcase with ⟨hf, rfl⟩ | ⟨_, hW2⟩
  · rw [hflag] at hf; exact absurd hf (by simp)
  · obtain ⟨_, _, _, _, hcov⟩ := wave_rel registry st1 st hW2
    exact fun p hp hk => hcov p hp hk

/-- The closure step at the final state: following one satisfied edge from a
scanned name lands on a scanned name, and on a bump-set member when the
target is standalone. -/
theorem run_edge_closure {registry : List Package} {sat : String → String → Option Bool}
    {minV : String → Option String} {st : BumpState}
    (hN : (registry.map Package.name).Nodup)
    (hrun : runBumpDecision registry sat minV = some (.ok st)) :
    ∀ u v, u ∈ st.scanned → SatEdge registry sat u v →
      v ∈ st.scanned ∧ (StandaloneName registry v → v ∈ st.packageNeedBump) := by
  intro u v hu he
  obtain ⟨p, d, q, hp, hpn, hd, hfq, hqn, hsq⟩ := he
  have hdone : DepsDone registry sat st p := run_done hN hrun u hu p hp hpn
  obtain ⟨h1, h2⟩ := hdone d hd q hfq hsq
  obtain ⟨hqm, _⟩ := findPkg_mem hfq
  rcases hmr : q.monoRepo with _ | kind
  · have hb : q.name ∈ st.packageNeedBump := h1 hmr
    rw [hqn] at hb
    exact ⟨run_bumpScanned hrun v hb, fun _ => hb⟩
  · have hstandnot : StandaloneName registry v → v ∈ st.packageNeedBump := by
      rintro ⟨p', hp', hp'n, hp's⟩
      have : p' = q := registry_name_inj hN hp' hqm (by rw [hp'n, hqn])
      rw [this] at hp's
      rw [hp's] at hmr
      exact absurd hmr (by simp)
    rcases kind with _ | _
    · have := run_client_scanned hrun q hqm hmr
      rw [hqn] at this
      exact ⟨this, hstandnot⟩
    · have hflag : st.serverNeedBump = true := h2 hmr
      have := run_server_scanned hrun hflag q hqm hmr
      rw [hqn] at this
      exact ⟨this, hstandnot⟩

/-- The scan sources of a finished run are all scanned. -/
theorem run_sources_scanned {registry : List Package} {sat : String → String → Option Bool}
    {minV : String → Option String} {st : BumpState}
    (hrun : runBumpDecision registry sat minV = some (.ok st)) :
    ∀ n, n ∈ bumpSources registry st → n ∈ st.scanned := by
  intro n hn
  rcases List.mem_append.mp hn with hcl | hsv
  · obtain ⟨p, hp, hk, hpn⟩ := mem_membersOf.mp hcl
    rw [← hpn]
    exact run_client_scanned hrun p hp hk
  · by_cases hflag : st.serverNeedBump
    · rw [if_pos hflag] at hsv
      obtain ⟨p, hp, hk, hpn⟩ := mem_membersOf.mp hsv
      rw [← hpn]
      exact run_server_scanned hrun hflag p hp hk
    · rw [if_neg hflag] at hsv
      simp at hsv

/-- Forward direction of C1: everything reachable from the scan sources by
satisfied edges is scanned, and reachable standalone names are in the
BumpSet. -/
theorem run_reaches_in_bump {registry : List Package} {sat : String → String → Option Bool}
    {minV : String → Option String} {st : BumpState}
    (hN : (registry.map Package.name).Nodup)
    (hrun : runBumpDecision registry sat minV = some (.ok st)) :
    ∀ v, Reaches registry sat (bumpSources registry st) v →
      v ∈ st.scanned ∧ (StandaloneName registry v → v ∈ st.packageNeedBump) := by
  intro v hv
  induction hv with
  | base hs he => exact run_edge_closure hN hrun _ _ (run_sources_scanned hrun _ hs) he
  | step _ he ihu => exact run_edge_closure hN hrun _ _ ihu.1 he

/-- Everything accumulated so far is reachable from the sources `S`. -/
def ReachState (registry : List Package) (sat : String → String → Option Bool)
    (S : List String) (st : BumpState) : Prop :=
  (∀ n, n ∈ st.packageNeedBump → Reaches registry sat S n) ∧
  (∀ n, n ∈ st.scanned → n ∈ S ∨ Reaches registry sat S n)

theorem checkDeps_reach {registry : List Package} {sat : String → String → Option Bool}
    {minV : String → Option String} {S : List String}
    {g : BumpState → Package → Option (Except BumpError BumpState)}
    (Hg : ∀ st pkg st', pkg ∈ registry →
      (pkg.name ∈ S ∨ Reaches registry sat S pkg.name) →
      g st pkg = some (.ok st') → ReachState registry sat S st →
      ReachState registry sat S st') :
    ∀ deps (pkgCtx : Package), pkgCtx ∈ registry →
      (pkgCtx.name ∈ S ∨ Reaches registry sat S pkgCtx.name) →
      (∀ d, d ∈ deps → d ∈ pkgCtx.combinedDependencies) →
      ∀ st st', checkDeps registry sat minV g st deps = some (.ok st') →
        ReachState registry sat S st → ReachState registry sat S st' := by
  intro deps
  induction deps with
  | nil =>
    intro pkgCtx _ _ _ st st' h hR
    simp only [checkDeps, Option.some.injEq, Except.ok.injEq] at h
    rw [← h]
    exact hR
  | cons d rest ih =>
    intro pkgCtx hctx hctxS hdeps st st' h hR
    have hdeps' : ∀ d', d' ∈ rest → d' ∈ pkgCtx.combinedDependencies :=
      fun d' hd' => hdeps d' (List.mem_cons_of_mem d hd')
    rw [checkDeps] at h
    rcases hfind : findPkg registry d.name with _ | depPkg
    · rw [hfind] at h
      exact ih pkgCtx hctx hctxS hdeps' st st' h hR
    · rw [hfind] at h
      obtain ⟨hdm, hdn⟩ := findPkg_mem hfind
      simp only at h
      rcases hsat : sat depPkg.version d.version with _ | b
      · simp [hsat] at h
      · rcases b with _ | _
        · simp only [hsat] at h
          rcases hmin : minV d.version with _ | m
          · simp [hmin] at h
          · simp only [hmin] at h
            rcases hsave : saveVersion st.depVersions d.name m depPkg.monoRepo with e | dv
            · simp [hsave] at h
            · simp only [hsave] at h
              exact ih pkgCtx hctx hctxS hdeps' { st with depVersions := dv } st' h
                ⟨hR.1, hR.2⟩
        · simp only [hsat] at h
          rcases hmr : depPkg.monoRepo with _ | kind
          · rw [hmr] at h
            rw [if_pos rfl] at h
            by_cases hmem : depPkg.name ∈ st.packageNeedBump
            · rw [if_pos hmem] at h
              rcases hsave : saveVersion st.depVersions d.name depPkg.version none with e | dv
              · simp [hsave] at h
              · simp only [hsave] at h
                exact ih pkgCtx hctx hctxS hdeps' { st with depVersions := dv } st' h
                  ⟨hR.1, hR.2⟩
            · rw [if_neg hmem] at h
              rcases hG : g { st with
                  packageNeedBump := st.packageNeedBump ++ [depPkg.name] } depPkg with _ | res
              · rw [hG] at h; simp at h
              · rw [hG] at h
                rcases res with e | st3
                · simp at h
                · simp only at h
                  have hedge : SatEdge registry sat pkgCtx.name depPkg.name :=
                    ⟨pkgCtx, d, depPkg, hctx, rfl, hdeps d (List.mem_cons_self d rest),
                     hfind, rfl, hsat⟩
                  have hreach : Reaches registry sat S depPkg.name := by
                    rcases hctxS with hS | hRe
                    · exact Reaches.base hS hedge
                    · exact Reaches.step hRe hedge
                  have hR2 : ReachState registry sat S
                      { st with packageNeedBump := st.packageNeedBump ++ [depPkg.name] } := by
                    refine ⟨fun n hn => ?_, hR.2⟩
                    rcases List.mem_append.mp hn with hn' | hn'
                    · exact hR.1 n hn'
                    · rcases List.mem_singleton.mp hn' with rfl
                      exact hreach
                  have hR3 : ReachState registry sat S st3 :=
                    Hg _ _ _ hdm (Or.inr hreach) hG hR2
                  rcases hsave : saveVersion st3.depVersions d.name depPkg.version none
                    with e | dv
                  · simp [hsave] at h
                  · simp only [hsave] at h
                    exact ih pkgCtx hctx hctxS hdeps' { st3 with depVersions := dv } st' h
                      ⟨hR3.1, hR3.2⟩
          · rw [hmr] at h
            rcases kind with _ | _
            · rw [if_neg (by simp), if_neg (by simp)] at h
              rcases hsave : saveVersion st.depVersions d.name depPkg.version
                  (some MonoRepoKind.Client) with e | dv
              · simp [hsave] at h
              · simp only [hsave] at h
                exact ih pkgCtx hctx hctxS hdeps' { st with depVersions := dv } st' h
                  ⟨hR.1, hR.2⟩
            · rw [if_neg (by simp), if_pos rfl] at h
              rcases hsave : saveVersion st.depVersions d.name depPkg.version
                  (some MonoRepoKind.Server) with e | dv
              · simp [hsave] at h
              · simp only [hsave] at h
                exact ih pkgCtx hctx hctxS hdeps'
                  { st with serverNeedBump := true, depVersions := dv } st' h ⟨hR.1, hR.2⟩

theorem check_reach {registry : List Package} {sat : String → String → Option Bool}
    {minV : String → Option String} {S : List String} :
    ∀ f st pkg st', pkg ∈ registry →
      (pkg.name ∈ S ∨ Reaches registry sat S pkg.name) →
      checkPackageNeedBump registry sat minV f st pkg = some (.ok st') →
      ReachState registry sat S st → ReachState registry sat S st' := by
  intro f
  induction f with
  | zero => intro st pkg st' _ _ h; simp [checkPackageNeedBump] at h
  | succ f ihf =>
    intro st pkg st' hpm hpS h hR
    rw [checkPackageNeedBump] at h
    have hR1 : ReachState registry sat S { st with scanned := st.scanned ++ [pkg.name] } := by
      refine ⟨hR.1, fun n hn => ?_⟩
      rcases List.mem_append.mp hn with hn' | hn'
      · exact hR.2 n hn'
      · rcases List.mem_singleton.mp hn' with rfl
        exact hpS
    exact checkDeps_reach (fun st2 q st3 hq hqS hG hR' => ihf st2 q st3 hq hqS hG hR')
      pkg.combinedDependencies pkg hpm hpS (fun _ hd => hd) _ st' h hR1

theorem wave_reach {registry : List Package} {sat : String → String → Option Bool}
    {minV : String → Option String} {S : List String} {f : Nat} {kind : MonoRepoKind} :
    ∀ pkgs st st', (∀ p, p ∈ pkgs → p ∈ registry) →
      (∀ p, p ∈ pkgs → p.monoRepo = some kind → p.name ∈ S) →
      checkMonoRepoNeedBump registry sat minV f kind st pkgs = some (.ok st') →
      ReachState registry sat S st → ReachState registry sat S st' := by
  intro pkgs
  induction pkgs with
  | nil =>
    intro st st' _ _ h hR
    simp only [checkMonoRepoNeedBump, Option.some.injEq, Except.ok.injEq] at h
    rw [← h]
    exact hR
  | cons pkg rest ih =>
    intro st st' hsub hS h hR
    rw [checkMonoRepoNeedBump] at h
    by_cases hk : pkg.monoRepo = some kind
    · rw [if_pos hk] at h
      rcases hG : checkPackageNeedBump registry sat minV f st pkg with _ | res
      · rw [hG] at h; simp at h
      · rw [hG] at h
        rcases res with e | st1
        · simp at h
        · simp only at h
          have hR1 : ReachState registry sat S st1 :=
            check_reach f st pkg st1 (hsub pkg (List.mem_cons_self pkg rest))
              (Or.inl (hS pkg (List.mem_cons_self pkg rest) hk)) hG hR
          exact ih st1 st' (fun p hp => hsub p (List.mem_cons_of_mem pkg hp))
            (fun p hp hpk => hS p (List.mem_cons_of_mem pkg hp) hpk) h hR1
    · rw [if_neg hk] at h
      exact ih st st' (fun p hp => hsub p (List.mem_cons_of_mem pkg hp))
        (fun p hp hpk => hS p (List.mem_cons_of_mem pkg hp) hpk) h hR

/-- Backward direction of C1: every name in the final BumpSet is reachable
from the scan sources by satisfied edges. -/
theorem run_bump_reaches {registry : List Package} {sat : String → String → Option Bool}
    {minV : String → Option String} {st : BumpState}
    (hrun : runBumpDecision registry sat minV = some (.ok st)) :
    ∀ n, n ∈ st.packageNeedBump →
      Reaches registry sat (bumpSources registry st) n := by
  obtain ⟨st1, hW1, hcase⟩ := runBumpDecision_inv hrun
  have hR0 : ReachState registry sat (bumpSources registry st) ⟨[], false, [], []⟩ :=
    ⟨fun n hn => by simp at hn, fun n hn => by simp at hn⟩
  have hClientS : ∀ p, p ∈ registry → p.monoRepo = some .Client →
      p.name ∈ bumpSources registry st :=
    fun p hp hk => List.mem_append.mpr (Or.inl (mem_membersOf.mpr ⟨p, hp, hk, rfl⟩))
  have hR1 : ReachState registry sat (bumpSources registry st) st1 :=
    wave_reach registry ⟨[], false, [], []⟩ st1 (fun _ hp => hp) hClientS hW1 hR0
  rcases hcase with ⟨_, heq⟩ | ⟨hflag, hW2⟩
  · intro n hn
    rw [heq] at hn
    exact hR1.1 n hn
  · have hflagFinal : st.serverNeedBump = true :=
      (stMono_of_waveRel (wave_rel registry st1 st hW2)).2.1 hflag
    have hServerS : ∀ p, p ∈ registry → p.monoRepo = some .Server →
        p.name ∈ bumpSources registry st := by
      intro p hp hk
      refine List.mem_append.mpr (Or.inr ?_)
      rw [if_pos hflagFinal]
      exact mem_membersOf.mpr ⟨p, hp, hk, rfl⟩
    have hR2 : ReachState registry sat (bumpSources registry st) st :=
      wave_reach registry st1 st (fun _ hp => hp) hServerS hW2 hR1
    exact hR2.1

/-- **C1 (amended)**: in a completed run, the BumpSet contains only standalone
registry names, and a standalone package is in the BumpSet exactly when it is
reachable, by a non-empty chain of satisfied dependency edges, from the scan
sources — the Client group's members, together with the Server group's
members when the run ends with `serverAlsoNeedsBump` set. -/
theorem c1_bumpset_is_reachable_standalone_set
    (registry : List Package) (sat : String → String → Option Bool)
    (minV : String → Option String) (st : BumpState)
    (hN : (registry.map Package.name).Nodup)
    (hrun : runBumpDecision registry sat minV = some (.ok st)) :
    (∀ n, n ∈ st.packageNeedBump → StandaloneName registry n) ∧
    (∀ p, p ∈ registry → p.monoRepo = none →
      (p.name ∈ st.packageNeedBump ↔
        Reaches registry sat (bumpSources registry st) p.name)) := by
  constructor
  · intro n hn
    obtain ⟨st1, hW1, hcase⟩ := runBumpDecision_inv hrun
    obtain ⟨⟨t, hb, hs⟩, _, _, _, _⟩ := wave_rel registry ⟨[], false, [], []⟩ st1 hW1
    rcases hcase with ⟨_, heq⟩ | ⟨_, hW2⟩
    · rw [heq, hb] at hn
      rcases List.mem_append.mp hn with hn' | hn'
      · simp at hn'
      · exact hs n hn'
    · obtain ⟨⟨t2, hb2, hs2⟩, _, _, _, _⟩ := wave_rel registry st1 st hW2
      rw [hb2, hb] at hn
      rcases List.mem_append.mp hn with hn' | hn'
      · rcases List.mem_append.mp hn' with hn'' | hn''
        · simp at hn''
        · exact hs n hn''
      · exact hs2 n hn'
  · intro p hp hps
    constructor
    · exact fun hn => run_bump_reaches hrun p.name hn
    · intro hre
      exact (run_reaches_in_bump hN hrun p.name hre).2 ⟨p, hp, rfl, hps⟩

/-- A registry where the second wave adds a standalone package (`t`) that is
*not* reachable from the Client group: `a` (Client) pulls in the Server group
through `s1`, and the unrelated Server member `s2` then pulls in `t`. -/
def serverWaveRegistry : List Package :=
  [⟨"a", "1.0.0", [⟨"s1", "1.0.0", false⟩], some .Client⟩,
   ⟨"s1", "1.0.0", [], some .Server⟩,
   ⟨"s2", "1.0.0", [⟨"t", "1.0.0", false⟩], some .Server⟩,
   ⟨"t", "1.0.0", [], none⟩]

/-- The only satisfied edges of `serverWaveRegistry` are `a → s1` and
`s2 → t`. -/
theorem serverWave_edges {u v : String}
    (he : SatEdge serverWaveRegistry satSpec u v) :
    (u = "a" ∧ v = "s1") ∨ (u = "s2" ∧ v = "t") := by
  obtain ⟨p, d, q, hp, hpn, hd, hfq, hqn, hsq⟩ := he
  simp only [serverWaveRegistry, List.mem_cons, List.not_mem_nil, or_false] at hp
  rcases hp with rfl | rfl | rfl | rfl
  · left
    simp only [List.mem_singleton] at hd
    rw [hd] at hfq
    have hv : findPkg serverWaveRegistry "s1" =
        some ⟨"s1", "1.0.0", [], some .Server⟩ := rfl
    rw [hv] at hfq
    injection hfq with hfq
    rw [← hfq] at hqn
    exact ⟨hpn.symm, hqn.symm⟩
  · simp at hd
  · right
    simp only [List.mem_singleton] at hd
    rw [hd] at hfq
    have hv : findPkg serverWaveRegistry "t" = some ⟨"t", "1.0.0", [], none⟩ := rfl
    rw [hv] at hfq
    injection hfq with hfq
    rw [← hfq] at hqn
    exact ⟨hpn.symm, hqn.symm⟩
  · simp at hd

theorem serverWave_reaches_only_s1 :
    ∀ v, Reaches serverWaveRegistry satSpec ["a"] v → v = "s1" := by
  intro v hv
  induction hv with
  | base hs he =>
    rcases serverWave_edges he with ⟨_, hv'⟩ | ⟨hu, _⟩
    · exact hv'
    · rcases List.mem_singleton.mp hs with rfl
      exact absurd hu (by decide)
  | step _ he ihu =>
    rcases serverWave_edges he with ⟨hu, _⟩ | ⟨hu, _⟩
    · rw [ihu] at hu
      exact absurd hu (by decide)
    · rw [ihu] at hu
      exact absurd hu (by decide)

/-- **C1 counterexample**: on `serverWaveRegistry` the engine puts `t` into
the BumpSet although `t` is not reachable (by satisfied edges) from the
initiating Client group's members — the claim as stated, with reachability
from the initiating group only, is false. -/
theorem c1_counterexample :
    runBumpDecision serverWaveRegistry satSpec minVSpec =
      some (.ok ⟨["t"], true, [("Server", "1.0.0"), ("t", "1.0.0")],
        ["a", "s1", "s2", "t"]⟩) ∧
    ¬ Reaches serverWaveRegistry satSpec (membersOf serverWaveRegistry .Client) "t" := by
  refine ⟨rfl, fun h => ?_⟩
  have hm : membersOf serverWaveRegistry .Client = ["a"] := rfl
  rw [hm] at h
  exact absurd (serverWave_reaches_only_s1 "t" h) (by decide)

theorem c1_witness :
    (serverWaveRegistry.map Package.name).Nodup ∧
    runBumpDecision serverWaveRegistry satSpec minVSpec =
      some (.ok ⟨["t"], true, [("Server", "1.0.0"), ("t", "1.0.0")],
        ["a", "s1", "s2", "t"]⟩) ∧
    ((∀ n, n ∈ (⟨["t"], true, [("Server", "1.0.0"), ("t", "1.0.0")],
        ["a", "s1", "s2", "t"]⟩ : BumpState).packageNeedBump →
        StandaloneName serverWaveRegistry n) ∧
     (∀ p, p ∈ serverWaveRegistry → p.monoRepo = none →
       (p.name ∈ (⟨["t"], true, [("Server", "1.0.0"), ("t", "1.0.0")],
          ["a", "s1", "s2", "t"]⟩ : BumpState).packageNeedBump ↔
        Reaches serverWaveRegistry satSpec
          (bumpSources serverWaveRegistry
            ⟨["t"], true, [("Server", "1.0.0"), ("t", "1.0.0")],
             ["a", "s1", "s2", "t"]⟩) p.name))) :=
  ⟨by decide, rfl,
   c1_bumpset_is_reachable_standalone_set serverWaveRegistry satSpec minVSpec
     ⟨["t"], true, [("Server", "1.0.0"), ("t", "1.0.0")], ["a", "s1", "s2", "t"]⟩
     (by decide) rfl⟩
